import Mathlib

/-!
Verification development for the orthogonal connector router
(`src/unnamed/part_000` of the Horizon-Canvas repository).

The TypeScript source is embedded shallowly:

* TS `number` is modelled as `ℚ` (exact arithmetic; every value the
  routing algorithm manipulates on the claims' inputs is rational).
* Mutable `PointNode` objects are modelled by an immutable record stored
  in a coordinate-keyed map; object identity coincides with the
  coordinate because the source's `PointGraph.add` creates at most one
  node per distinct coordinate (its index is keyed by the coordinate
  strings).  Fields that the source mutates (`distance`,
  `shortestPath`) are updated by re-inserting the record.
* JS `Set` values whose iteration order matters (`unsettledNodes`) are
  modelled as insertion-ordered duplicate-free lists; the `settledNodes`
  set is only ever queried for membership, so it is modelled as a
  coordinate-keyed map to `Unit` for efficient lookup.
* Thrown exceptions are modelled with `Except String`.
* `Array.prototype.sort((a,b) => a-b)` sorts numbers ascending; it is
  modelled with `List.insertionSort (· ≤ ·)` (any sorting algorithm
  yields the same list on rational values).
-/

deriving instance DecidableEq for Except

set_option allowUnsafeReducibility true

attribute [semireducible] Rat.add Rat.mul Rat.sub Rat.inv Rat.ofScientific

namespace Horizon

/-- Comparator for rationals used to key the coordinate maps: this plays the
role of the string keys `x.toString()` / `y.toString()` of the source's
nested index (distinct rationals have distinct strings; only exact lookup
is ever performed, never ordered iteration). -/
def qcmp (a b : ℚ) : Ordering :=
  if a < b then .lt else if b < a then .gt else .eq

/-- A point in space (source: `interface Point { x, y }`). -/
structure Point where
  x : ℚ
  y : ℚ
deriving DecidableEq, Repr

/-- Lexicographic comparator keying the graph's coordinate index.  The
source indexes nodes by the pair of coordinate strings; exact-key lookup
is all that is ever used, so any lawful comparator is equivalent. -/
def Point.cmp (a b : Point) : Ordering :=
  (qcmp a.x b.x).then (qcmp a.y b.y)

/-- Utility Point creator (source: `makePt`). -/
def makePt (x y : ℚ) : Point := ⟨x, y⟩

/-- Exact square root of a rational that is the square of a rational
(numerator and denominator are then perfect squares).  This models
`Math.sqrt`: within this program `distance` is only ever applied to
axis-aligned point pairs (see `createGraph`), for which the radicand is
the square of a rational and the value below is exact.  On other inputs
`Math.sqrt` would be irrational; this model returns the floor-ish value
`Nat.sqrt` gives, which no reachable computation observes. -/
def ratSqrt (q : ℚ) : ℚ :=
  mkRat (Nat.sqrt q.num.toNat) (Nat.sqrt q.den)

/-- Computes distance between two points (source: `distance`). -/
def distance (a b : Point) : ℚ :=
  ratSqrt ((b.x - a.x) ^ 2 + (b.y - a.y) ^ 2)

/-- Represents a rectangle by location and size.  The source has both the
plain `Rect` record and the `Rectangle` class with derived accessors;
they carry the same four fields (`Rectangle.fromRect` copies them), so a
single structure models both.  Accessors that no reachable code path of
the verified claims uses (`center`, the eight compass points, `size`,
`location`) are omitted. -/
structure Rectangle where
  left : ℚ
  top : ℚ
  width : ℚ
  height : ℚ
deriving DecidableEq, Repr

/-- Source alias: the `Rect` interface carries the same fields. -/
abbrev Rect := Rectangle

namespace Rectangle

/-- Source: `Rectangle.fromRect` (field-for-field copy). -/
def fromRect (r : Rect) : Rectangle := r

/-- Source: `Rectangle.fromLTRB`. -/
def fromLTRB (left top right bottom : ℚ) : Rectangle :=
  ⟨left, top, right - left, bottom - top⟩

/-- Source getter `right`. -/
def right (r : Rectangle) : ℚ := r.left + r.width

/-- Source getter `bottom`. -/
def bottom (r : Rectangle) : ℚ := r.top + r.height

/-- Inclusive containment test (source: `Rectangle.contains`). -/
def contains (r : Rectangle) (p : Point) : Bool :=
  r.left ≤ p.x && p.x ≤ r.right && r.top ≤ p.y && p.y ≤ r.bottom

/-- Source: `Rectangle.inflate`. -/
def inflate (r : Rectangle) (horizontal vertical : ℚ) : Rectangle :=
  fromLTRB (r.left - horizontal) (r.top - vertical)
    (r.right + horizontal) (r.bottom + vertical)

/-- Strict overlap test (source: `Rectangle.intersects`). -/
def intersects (r rectangle : Rectangle) : Bool :=
  rectangle.left < r.left + r.width && r.left < rectangle.left + rectangle.width &&
    rectangle.top < r.top + r.height && r.top < rectangle.top + rectangle.height

/-- Source: `Rectangle.union`. -/
def union (r₁ r₂ : Rectangle) : Rectangle :=
  fromLTRB (min (min r₁.left r₁.right) (min r₂.left r₂.right))
    (min (min r₁.top r₁.bottom) (min r₂.top r₂.bottom))
    (max (max r₁.left r₁.right) (max r₂.left r₂.right))
    (max (max r₁.top r₁.bottom) (max r₂.top r₂.bottom))

end Rectangle

/-- Side of a shape (source: `type Side`). -/
inductive Side where
  | top
  | right
  | bottom
  | left
deriving DecidableEq, Repr

/-- Represents a connection point on a routing request
(source: `interface ConnectorPoint`). -/
structure ConnectorPoint where
  shape : Rect
  side : Side
  distance : ℚ
deriving DecidableEq, Repr

/-- Gets the actual point of the connector based on the distance parameter
(source: `computePt`).  Note that the source multiplies `distance` by the
shape's width for the top/bottom sides but adds it as an absolute offset
for the left/right sides. -/
def computePt (p : ConnectorPoint) : Point :=
  let b := Rectangle.fromRect p.shape
  match p.side with
  | .bottom => makePt (b.left + b.width * p.distance) b.bottom
  | .top => makePt (b.left + b.width * p.distance) b.top
  | .left => makePt b.left (b.top + p.distance)
  | .right => makePt b.right (b.top + p.distance)

/-- Extrudes the connector point by margin depending on its side
(source: `extrudeCp`). -/
def extrudeCp (cp : ConnectorPoint) (margin : ℚ) : Point :=
  let px := (computePt cp).x
  let py := (computePt cp).y
  match cp.side with
  | .top => makePt px (py - margin)
  | .right => makePt (px + margin) py
  | .bottom => makePt px (py + margin)
  | .left => makePt (px - margin) py

/-- Returns flag indicating if the side belongs on a vertical axis
(source: `isVerticalSide`). -/
def isVerticalSide (side : Side) : Bool :=
  side = Side.top || side = Side.bottom

/-- Bend classification of a 3-point corner
(source: `type BendDirection = BasicCardinalPoint | 'unknown' | 'none'`). -/
inductive BendDirection where
  | n
  | e
  | s
  | w
  | unknown
  | none
deriving DecidableEq, Repr

/-- Message of the unreachable final `throw new Error('Nope')` of `getBend`. -/
def bendErrorMsg : String := "Nope"

/-- Given two segments represented by 3 points, determines if the second
segment bends on an orthogonal direction or not, and which
(source: `getBend`).  The trailing `throw` is modelled as an error value. -/
def getBend (a b c : Point) : Except String BendDirection :=
  let equalX := a.x = b.x ∧ b.x = c.x
  let equalY := a.y = b.y ∧ b.y = c.y
  let segment1Horizontal := a.y = b.y
  let segment1Vertical := a.x = b.x
  let segment2Horizontal := b.y = c.y
  let segment2Vertical := b.x = c.x
  if equalX ∨ equalY then
    .ok .none
  else if ¬(segment1Vertical ∨ segment1Horizontal) ∨
      ¬(segment2Vertical ∨ segment2Horizontal) then
    .ok .unknown
  else if segment1Horizontal ∧ segment2Vertical then
    .ok (if c.y > b.y then .s else .n)
  else if segment1Vertical ∧ segment2Horizontal then
    .ok (if c.x > b.x then .e else .w)
  else
    .error bendErrorMsg

/-- Interior loop of `simplifyPath`: `prev` is the point at index `i - 1`
of the input (regardless of whether it was kept), the argument list is the
input from index `i` on; the final singleton is the unconditionally pushed
last point. -/
def simplifyStep (prev : Point) : List Point → Except String (List Point)
  | [] => .ok []
  | [last] => .ok [last]
  | cur :: next :: rest => do
      let bend ← getBend prev cur next
      let tail ← simplifyStep cur (next :: rest)
      if bend ≠ BendDirection.none then
        .ok (cur :: tail)
      else
        .ok tail

/-- Simplifies the path by removing unnecessary points, based on orthogonal
pathways (source: `simplifyPath`).  An exception from `getBend` (never
raised, see the safety theorem) propagates. -/
def simplifyPath (points : List Point) : Except String (List Point) :=
  if points.length ≤ 2 then .ok points
  else
    match points with
    | [] => .ok []
    | p₀ :: rest => (simplifyStep p₀ rest).map (p₀ :: ·)

/-- Source `Number.MAX_SAFE_INTEGER`, the initial node distance. -/
def MAX_SAFE_INTEGER : ℚ := 9007199254740991

/-- Represents a node in a graph, whose data is a Point
(source: `class PointNode`).  The mutable object is modelled as a record
stored in the graph's coordinate-keyed index; `shortestPath` and the
adjacency keys hold the coordinates of the referenced nodes (one node per
coordinate, so coordinates are faithful node identities). -/
structure PointNode where
  data : Point
  distance : ℚ
  shortestPath : List Point
  adjacentNodes : List (Point × ℚ)
deriving DecidableEq, Repr

/-- Source `new PointNode(p)`. -/
def PointNode.fresh (p : Point) : PointNode :=
  ⟨p, MAX_SAFE_INTEGER, [], []⟩

/-- Represents a Graph of Point nodes (source: `class PointGraph`).  The
source keys its nested index by the coordinate strings `x.toString()`,
`y.toString()`; only exact-key access is performed on it, which the
coordinate-keyed map reproduces. -/
structure PointGraph where
  index : Batteries.RBMap Point PointNode Point.cmp

def PointGraph.empty : PointGraph := ⟨Batteries.RBMap.empty⟩

/-- Source `PointGraph.get` (returns the node registered at `p`, if any). -/
def PointGraph.get (g : PointGraph) (p : Point) : Option PointNode :=
  g.index.find? p

/-- Source `PointGraph.has`. -/
def PointGraph.has (g : PointGraph) (p : Point) : Bool :=
  (g.get p).isSome

/-- Source `PointGraph.add`: registers a fresh node unless the coordinate
already has one (the existing node is kept). -/
def PointGraph.add (g : PointGraph) (p : Point) : PointGraph :=
  if g.has p then g else ⟨g.index.insert p (PointNode.fresh p)⟩

/-- JS `Map.set` on the adjacency map: replace the value at an existing
key, else append (iteration order is insertion order). -/
def setAdjacent : List (Point × ℚ) → Point → ℚ → List (Point × ℚ)
  | [], q, w => [(q, w)]
  | e :: rest, q, w => if e.1 = q then (q, w) :: rest else e :: setAdjacent rest q w

/-- Message of `throw new Error('A point was not found')` in `connect`. -/
def connectErrorMsg : String := "A point was not found"

/-- Source `PointGraph.connect`: one directed edge `a -> b` weighted by the
Euclidean distance. -/
def PointGraph.connect (g : PointGraph) (a b : Point) : Except String PointGraph :=
  match g.get a, g.get b with
  | some nodeA, some _ =>
      .ok ⟨g.index.insert a
        { nodeA with adjacentNodes := setAdjacent nodeA.adjacentNodes b (distance a b) }⟩
  | _, _ => .error connectErrorMsg

/-- Direction of a path segment (source: `type Direction = 'v' | 'h'`). -/
inductive Direction where
  | v
  | h
deriving DecidableEq, Repr

/-- Source `directionOf`.  Note that the source labels a pair sharing the
x-coordinate 'h' and a pair sharing the y-coordinate 'v'; the labels are
only ever compared to each other, so the swap has no observable effect,
and the model reproduces the source verbatim. -/
def directionOf (a b : Point) : Option Direction :=
  if a.x = b.x then some .h
  else if a.y = b.y then some .v
  else Option.none

/-- Source `inferPathDirection` composed with `directionOfNodes` (the
recorded path stores the predecessors' coordinates). -/
def inferPathDirection (node : PointNode) : Option Direction :=
  match node.shortestPath.getLast? with
  | Option.none => Option.none
  | some p => directionOf p node.data

/-- Source `calculateMinimumDistance`: relaxation of the edge
`sourceNode -> evaluationNode` with the direction-change penalty.  The
source receives the two node objects; the model receives their
coordinates and reads the records from the graph (both are always present
when called from the search loop). -/
def calculateMinimumDistance (g : PointGraph) (evaluationNode : Point)
    (edgeWeigh : ℚ) (sourceNode : Point) : PointGraph :=
  match g.get sourceNode, g.get evaluationNode with
  | some src, some ev =>
      let sourceDistance := src.distance
      let comingDirection := inferPathDirection src
      let goingDirection := directionOf src.data ev.data
      let changingDirection : Bool :=
        match comingDirection, goingDirection with
        | some c, some go => decide (c ≠ go)
        | _, _ => false
      let extraWeigh : ℚ := if changingDirection then (edgeWeigh + 1) ^ 2 else 0
      if sourceDistance + edgeWeigh + extraWeigh < ev.distance then
        ⟨g.index.insert evaluationNode
          { ev with
            distance := sourceDistance + edgeWeigh + extraWeigh,
            shortestPath := src.shortestPath ++ [src.data] }⟩
      else g
  | _, _ => g

/-- Distance field of the node registered at `p` (the fallback for an
unregistered coordinate is unreachable from the search loop, whose
unsettled set only ever holds registered nodes). -/
def nodeDistance (g : PointGraph) (p : Point) : ℚ :=
  match g.get p with
  | some n => n.distance
  | Option.none => MAX_SAFE_INTEGER

/-- Source `getLowestDistanceNode`: first strict minimum in iteration
order, starting from `MAX_SAFE_INTEGER`; `none` models the `null` result
when every unsettled node still has the initial distance. -/
def getLowestDistanceNode (g : PointGraph) (unsettledNodes : List Point) : Option Point :=
  (unsettledNodes.foldl
    (fun acc p => if nodeDistance g p < acc.2 then (some p, nodeDistance g p) else acc)
    (Option.none, MAX_SAFE_INTEGER)).1

/-- JS `Set.add`: append if absent (insertion-ordered, duplicate-free). -/
def setAdd (l : List Point) (p : Point) : List Point :=
  if p ∈ l then l else l ++ [p]

/-- The settled set: only membership is ever queried on it, so it is
modelled as a coordinate-keyed map. -/
abbrev SettledSet := Batteries.RBMap Point Unit Point.cmp

def settledHas (s : SettledSet) (p : Point) : Bool :=
  (s.find? p).isSome

/-- Inner `for (const [adjacentNode, edgeWeight] of currentNode.adjacentNodes)`
loop of the search: relax every not-yet-settled neighbour and add it to
the unsettled set. -/
def relaxAdjacent (settledNodes : SettledSet) (currentNode : Point)
    (adj : List (Point × ℚ)) (g : PointGraph) (unsettledNodes : List Point) :
    PointGraph × List Point :=
  adj.foldl
    (fun acc e =>
      if settledHas settledNodes e.1 then acc
      else (calculateMinimumDistance acc.1 e.1 e.2 currentNode, setAdd acc.2 e.1))
    (g, unsettledNodes)

/-- Message of the TypeError the source raises by dereferencing the `null`
that `getLowestDistanceNode` returns when no unsettled node has a distance
below `MAX_SAFE_INTEGER`. -/
def nullErrorMsg : String := "TypeError: Cannot read properties of null"

/-- While-loop of `calculateShortestPathFromSource`.  Each iteration
permanently settles a node that was not settled before, so the loop runs
at most one iteration per graph node and the fuel supplied by
`calculateShortestPathFromSource` is never exhausted; the fuel-exhaustion
branch returns the state unchanged only to keep the definition total. -/
def dijkstraLoop : Nat → PointGraph → SettledSet → List Point → Except String PointGraph
  | 0, g, _, _ => .ok g
  | Nat.succ fuel, g, settledNodes, unsettledNodes =>
    if unsettledNodes.isEmpty then .ok g
    else
      match getLowestDistanceNode g unsettledNodes with
      | Option.none => .error nullErrorMsg
      | some currentNode =>
          let unsettled₁ := unsettledNodes.erase currentNode
          let adj :=
            match g.get currentNode with
            | some n => n.adjacentNodes
            | Option.none => []
          let step := relaxAdjacent settledNodes currentNode adj g unsettled₁
          dijkstraLoop fuel step.1 (settledNodes.insert currentNode ()) step.2

/-- Source `calculateShortestPathFromSource`: zero the source node's
distance and run the settling loop from `{source}`. -/
def calculateShortestPathFromSource (graph : PointGraph) (source : Point) :
    Except String PointGraph :=
  let g₀ :=
    match graph.get source with
    | some n => PointGraph.mk (graph.index.insert source { n with distance := 0 })
    | Option.none => graph
  dijkstraLoop (g₀.index.size + 1) g₀ Batteries.RBMap.empty [source]

/-- Message template of the two `throw new Error(...)` guards of
`shortestPath` (the source interpolates the origin coordinates into both
messages, even for the missing-destination case; the model keeps one fixed
string). -/
def originNotFoundMsg : String := "Origin node not found"

/-- Source `shortestPath`, returning additionally the post-search graph:
the source mutates the graph in place (the search state lives in the node
objects), and `route` calls `shortestPath` twice on the same graph object,
so the second call observes the first call's mutations. -/
def shortestPathRun (graph : PointGraph) (origin destination : Point) :
    Except String (PointGraph × List Point) :=
  match graph.get origin with
  | Option.none => .error originNotFoundMsg
  | some _ =>
    match graph.get destination with
    | Option.none => .error originNotFoundMsg
    | some _ => do
      let g ← calculateShortestPathFromSource graph origin
      let path :=
        match g.get destination with
        | some n => n.shortestPath
        | Option.none => []
      .ok (g, path)

/-- Source `shortestPath`: the destination node's recorded predecessor
path (its own coordinate is not part of it). -/
def shortestPath (graph : PointGraph) (origin destination : Point) :
    Except String (List Point) :=
  (shortestPathRun graph origin destination).map (·.2)

/-- Entry insertion for the `Map<number, number[]>` of `reducePoints`:
keys (y-values) in insertion order, each carrying its duplicate-free list
of x-values in insertion order. -/
def insertXY : List (ℚ × List ℚ) → ℚ → ℚ → List (ℚ × List ℚ)
  | [], y, x => [(y, [x])]
  | e :: rest, y, x =>
      if e.1 = y then
        (if x ∈ e.2 then e else (e.1, e.2 ++ [x])) :: rest
      else e :: insertXY rest y x

/-- Returns an array without repeated points (source: `reducePoints`):
groups by y in first-encounter order, then emits each y-group's x-values
in first-encounter order. -/
def reducePoints (points : List Point) : List Point :=
  let m := points.foldl (fun acc p => insertXY acc p.y p.x) []
  (m.map (fun e => e.2.map (fun x => makePt x e.1))).flatten

/-- JS `Math.round`: round half away from the floor (toward +infinity). -/
def jsRound (q : ℚ) : ℤ := ⌊q + 1 / 2⌋

/-- Source `Rectangle.empty`. -/
def Rectangle.emptyRect : Rectangle := ⟨0, 0, 0, 0⟩

/-- Source `gridToSpots2`, the lattice spot generator `route` actually
calls (the grid-corner `gridToSpots` strategy is commented out in the
source).  The large commented-out blocks are not modelled; the computed
but never used `aspectRatio` binding is omitted.  The spread
`{ ...obstacles[0], distance: ... }` copies the rectangle's stored fields
left/top/width/height (the derived getters are not own-properties).  The
out-of-range fallback for `obstacles[0]`/`obstacles[1]` is unreachable:
`route` always passes the two endpoint shapes first. -/
def gridToSpots2 (shapeA shapeB : ConnectorPoint) (shapeMargin : ℚ)
    (obstacles : List Rectangle) : List Point :=
  let margin : ℚ := 30
  let rectA := obstacles.getD 0 Rectangle.emptyRect
  let rectB := obstacles.getD 1 Rectangle.emptyRect
  let distA := shapeA.distance + shapeMargin
  let distB := shapeB.distance + shapeMargin
  let x1 := min (rectA.left + rectA.width) (rectB.left + rectB.width) + margin
  let y1 := min (rectA.top + distA) (rectB.top + distB)
  let x2 := max rectA.left rectB.left - margin
  let y2 := max (rectA.top + distA) (rectB.top + distB)
  let width := |x2 - x1|
  let height := |y2 - y1|
  let rows : ℤ := if height / 10 > 10 then jsRound (height / 10) + 20 else 30
  let cols : ℤ := if width / 10 > 10 then jsRound (width / 10) + 20 else 30
  let xStep : ℚ := 10
  let yStep : ℚ := 10
  let gridPoints : List Point :=
    (List.range (rows + 20).toNat).flatMap (fun i =>
      (List.range (cols + 20).toNat).map (fun j =>
        let ii : ℤ := (i : ℤ) - 20
        let jj : ℤ := (j : ℤ) - 20
        makePt (jsRound (x1 + jj * xStep)) (jsRound (y1 + ii * yStep))))
  (reducePoints gridPoints).filter
    (fun p => !(obstacles.any (fun o => o.contains p)))

/-- A line between two points (source: `interface Line`). -/
structure Line where
  a : Point
  b : Point
deriving DecidableEq, Repr

/-- Duplicate-free accumulation mirroring `if (arr.indexOf(x) < 0) arr.push(x)`. -/
def addUnique (l : List ℚ) (x : ℚ) : List ℚ :=
  if x ∈ l then l else l ++ [x]

/-- Pairs every element of a list with its predecessor, mirroring the
index arithmetic `l[i - 1]` guarded by `i > 0`. -/
def withPrev (l : List ℚ) : List (Option ℚ × ℚ) :=
  (Option.none :: l.map some).zip l

/-- The paired `graph.connect(a, b); graph.connect(b, a)` calls of
`createGraph`, plus the connection record. -/
def connectBoth (acc : PointGraph × List Line) (a b : Point) :
    Except String (PointGraph × List Line) := do
  let g₁ ← acc.1.connect a b
  let g₂ ← g₁.connect b a
  .ok (g₂, acc.2 ++ [⟨a, b⟩])

/-- Creates a graph connecting the specified points orthogonally
(source: `createGraph`): one node per distinct spot coordinate, and for
every present lattice position an edge pair to the previous hot-x
neighbour in its row and the previous hot-y neighbour in its column,
whenever those coordinates are present. -/
def createGraph (spots : List Point) : Except String (PointGraph × List Line) :=
  let hotXs := (spots.foldl (fun acc p => addUnique acc p.x) []).insertionSort (· ≤ ·)
  let hotYs := (spots.foldl (fun acc p => addUnique acc p.y) []).insertionSort (· ≤ ·)
  let graph := spots.foldl PointGraph.add PointGraph.empty
  (withPrev hotYs).foldlM
    (fun acc yp =>
      (withPrev hotXs).foldlM
        (fun acc₂ xp =>
          let b := makePt xp.2 yp.2
          if acc₂.1.has b then do
            let acc₃ ←
              match xp.1 with
              | some px =>
                  let a := makePt px yp.2
                  if acc₂.1.has a then connectBoth acc₂ a b else .ok acc₂
              | Option.none => .ok acc₂
            match yp.1 with
            | some py =>
                let a := makePt b.x py
                if acc₃.1.has a then connectBoth acc₃ a b else .ok acc₃
            | Option.none => .ok acc₃
          else .ok acc₂)
        acc)
    (graph, ([] : List Line))

/-- Routing request data (source: `OrthogonalConnectorOpts`).  The `ctx`
canvas handle is never read by `route` and is omitted; `nodes` is
modelled as the list of design rectangles that `route` reads off
`Object.values(nodes)` (fields `design.x/y/width/height`). -/
structure OrthogonalConnectorOpts where
  nodes : List Rect
  pointA : ConnectorPoint
  pointB : ConnectorPoint
  shapeMargin : ℚ
  globalBoundsMargin : ℚ
  globalBounds : Rect
deriving DecidableEq, Repr

def routeShapeA (opts : OrthogonalConnectorOpts) : Rectangle :=
  Rectangle.fromRect opts.pointA.shape

def routeShapeB (opts : OrthogonalConnectorOpts) : Rectangle :=
  Rectangle.fromRect opts.pointB.shape

def routeInflatedA₀ (opts : OrthogonalConnectorOpts) : Rectangle :=
  (routeShapeA opts).inflate opts.shapeMargin opts.shapeMargin

def routeInflatedB₀ (opts : OrthogonalConnectorOpts) : Rectangle :=
  (routeShapeB opts).inflate opts.shapeMargin opts.shapeMargin

/-- Bounding-box collision check of `route`: when the two inflated shapes
would intersect, the margin is reset to 0 and the raw shapes are used. -/
def routeCollide (opts : OrthogonalConnectorOpts) : Bool :=
  (routeInflatedA₀ opts).intersects (routeInflatedB₀ opts)

def routeShapeMargin (opts : OrthogonalConnectorOpts) : ℚ :=
  if routeCollide opts then 0 else opts.shapeMargin

def routeInflatedA (opts : OrthogonalConnectorOpts) : Rectangle :=
  if routeCollide opts then routeShapeA opts else routeInflatedA₀ opts

def routeInflatedB (opts : OrthogonalConnectorOpts) : Rectangle :=
  if routeCollide opts then routeShapeB opts else routeInflatedB₀ opts

def routeInflatedBounds (opts : OrthogonalConnectorOpts) : Rectangle :=
  ((routeInflatedA opts).union (routeInflatedB opts)).inflate
    opts.globalBoundsMargin opts.globalBoundsMargin

/-- The "curated bounds" of `route`.  The source computes
`Rectangle.fromLTRB(Math.max(inflatedBounds.left), Math.max(inflatedBounds.top),
Math.min(inflatedBounds.right), Math.min(inflatedBounds.bottom))`: each
`Math.max`/`Math.min` receives a single argument and is therefore the
identity — `bigBounds` (the caller's `globalBounds`) is built two lines
earlier but never used, so no clipping against it takes place. -/
def routeBounds (opts : OrthogonalConnectorOpts) : Rectangle :=
  Rectangle.fromLTRB (routeInflatedBounds opts).left (routeInflatedBounds opts).top
    (routeInflatedBounds opts).right (routeInflatedBounds opts).bottom

def routeObstacleInflates (opts : OrthogonalConnectorOpts) : List Rectangle :=
  opts.nodes.map
    (fun r => (Rectangle.fromRect r).inflate (routeShapeMargin opts) (routeShapeMargin opts))

/-- The spot list `route` builds: first the two antenna points (the
per-side switch displacing `computePt` by the shape margin), then the
lattice points of `gridToSpots2` filtered against the inflated obstacle
set (the two endpoint shapes and every canvas node). -/
def routeSpots (opts : OrthogonalConnectorOpts) : List Point :=
  let sm := routeShapeMargin opts
  let antennas := [opts.pointA, opts.pointB].map
    (fun connectorPt =>
      let p := computePt connectorPt
      match connectorPt.side with
      | .top => makePt p.x (p.y - sm)
      | .right => makePt (p.x + sm) p.y
      | .bottom => makePt p.x (p.y + sm)
      | .left => makePt (p.x - sm) p.y)
  let gridPoints := gridToSpots2 opts.pointA opts.pointB sm
    ([routeInflatedA opts, routeInflatedB opts] ++ routeObstacleInflates opts)
  antennas ++ gridPoints

def routeGraphE (opts : OrthogonalConnectorOpts) : Except String (PointGraph × List Line) :=
  createGraph (routeSpots opts)

/-- Origin of the search: antenna of `pointA` (source: `extrudeCp(pointA, shapeMargin)`). -/
def routeOrigin (opts : OrthogonalConnectorOpts) : Point :=
  extrudeCp opts.pointA (routeShapeMargin opts)

/-- Destination of the search: antenna of `pointB`. -/
def routeDestination (opts : OrthogonalConnectorOpts) : Point :=
  extrudeCp opts.pointB (routeShapeMargin opts)

/-- Source `OrthogonalConnector.route`.  The writes to the static
`byproduct` snapshot (rulers, the `rulersToGrid` grid, spots,
connections) are diagnostics with no influence on the returned value and
are not modelled; `routeBounds` (consumed only by that grid) is defined
above because claim C7 concerns it.  The source calls `shortestPath`
twice — once for the emptiness test and once inside the returned
expression — and the second call re-runs the whole search on the graph
already mutated by the first call, which `shortestPathRun` threads
explicitly. -/
def route (opts : OrthogonalConnectorOpts) : Except String (List Point) := do
  let gc ← routeGraphE opts
  let r₁ ← shortestPathRun gc.1 (routeOrigin opts) (routeDestination opts)
  if 0 < r₁.2.length then
    let r₂ ← shortestPathRun r₁.1 (routeOrigin opts) (routeDestination opts)
    simplifyPath (computePt opts.pointA :: (r₂.2 ++ [computePt opts.pointB]))
  else
    .ok []

/-- Specification-side rendering of the keep rule of §4.7 of the spec,
stated there as: always keep the first and the last point; keep an
interior point exactly when its bend against its immediate neighbours in
the input is not `none`.  `keepInterior prev l` handles the interior
points: `prev` is the input predecessor of the head of `l`. -/
def keepInterior : Point → List Point → List Point
  | _, [] => []
  | _, [last] => [last]
  | prev, cur :: next :: rest =>
      if getBend prev cur next ≠ .ok BendDirection.none then
        cur :: keepInterior cur (next :: rest)
      else keepInterior cur (next :: rest)

/-- Specification-side companion of `simplifyPath` (claim C8's keep rule). -/
def simplifyKeepRule (pts : List Point) : List Point :=
  if pts.length ≤ 2 then pts
  else
    match pts with
    | [] => []
    | p₀ :: rest => p₀ :: keepInterior p₀ rest

/-- Scenario exercising claim C7: the caller's `globalBounds` is the tiny
square `(0,0)-(10,10)` while the shapes inflate far beyond it. -/
def opts7 : OrthogonalConnectorOpts :=
  { nodes := []
    pointA := ⟨⟨0, 0, 100, 50⟩, .right, 25⟩
    pointB := ⟨⟨300, 150, 100, 50⟩, .left, 25⟩
    shapeMargin := 10
    globalBoundsMargin := 20
    globalBounds := ⟨0, 0, 10, 10⟩ }

/-- The direction-change penalty in the words of claim C2: equal to
`(edgeWeight + 1)^2` exactly when both the direction of the last edge of
the source's recorded path and the direction of the edge from the source
to the candidate are defined and differ, and 0 otherwise. -/
def turnPenalty (src ev : PointNode) (w : ℚ) : ℚ :=
  if inferPathDirection src ≠ Option.none ∧ directionOf src.data ev.data ≠ Option.none ∧
      inferPathDirection src ≠ directionOf src.data ev.data
    then (w + 1) ^ 2 else 0

/-- Concrete two-node graph for the C2 witness: the source node sits at
distance 0 with an empty recorded path. -/
def c2Graph : PointGraph :=
  ⟨(Batteries.RBMap.empty.insert ⟨0, 0⟩ ⟨⟨0, 0⟩, 0, [], []⟩).insert ⟨10, 0⟩
    (PointNode.fresh ⟨10, 0⟩)⟩

/-- Two points sharing exactly one coordinate (the claim C4 edge shape):
equal y with different x, or equal x with different y — never a diagonal
and never a self-loop. -/
def orthogonalPair (u v : Point) : Prop :=
  (u.y = v.y ∧ u.x ≠ v.x) ∨ (u.x = v.x ∧ u.y ≠ v.y)

/-- Invariant of claim C4 on the node map: every record carries its key as
its `data`, every edge shares exactly one coordinate with its source, is
weighted by the Euclidean distance, and has a reverse edge of the same
weight. -/
def EdgeInv (g : PointGraph) : Prop :=
  ∀ p n, g.get p = some n → n.data = p ∧
    ∀ e ∈ n.adjacentNodes,
      orthogonalPair p e.1 ∧
      e.2 = distance p e.1 ∧
      ∃ m, g.get e.1 = some m ∧ (p, e.2) ∈ m.adjacentNodes

/-- The state the graph builder hands to the search: every node still
carries the initial distance `MAX_SAFE_INTEGER` and an empty predecessor
path (`PointGraph.add` registers only fresh nodes and `connect` touches
only adjacency). -/
@[reducible] def Pristine (g : PointGraph) : Prop :=
  ∀ e ∈ g.index.toList,
    (e.2 : PointNode).distance = MAX_SAFE_INTEGER ∧ (e.2 : PointNode).shortestPath = []

/-- Every registered node records its own key as its `data` coordinate. -/
@[reducible] def Coherent (g : PointGraph) : Prop :=
  ∀ e ∈ g.index.toList, (e.2 : PointNode).data = e.1

/-- Every adjacency weight in the graph is non-negative. -/
@[reducible] def WeightsNonneg (g : PointGraph) : Prop :=
  ∀ e ∈ g.index.toList, ∀ a ∈ (e.2 : PointNode).adjacentNodes, 0 ≤ a.2

/-- Invariant of one node record during Dijkstra's search (settled set `S`,
source `origin`): the record's key coherence and non-negative weights, the
characterisation of the empty path (only the origin or an untouched node),
the recorded path starting at the origin, built from settled nodes, never
containing the node itself, carrying non-decreasing recorded distances,
and ending at a node with an edge into this one. -/
def NodeInv (origin : Point) (S : SettledSet) (g : PointGraph) (p : Point)
    (n : PointNode) : Prop :=
  n.data = p ∧
  (∀ a ∈ n.adjacentNodes, 0 ≤ a.2) ∧
  (n.shortestPath = [] → p = origin ∨ n.distance = MAX_SAFE_INTEGER) ∧
  (n.shortestPath ≠ [] → n.shortestPath.head? = some origin) ∧
  (∀ q ∈ n.shortestPath, settledHas S q = true) ∧
  p ∉ n.shortestPath ∧
  List.Chain' (fun a b => a ≤ b) ((n.shortestPath ++ [p]).map (nodeDistance g)) ∧
  (n.shortestPath ≠ [] → ∃ q, n.shortestPath.getLast? = some q ∧
    ∃ m w', g.get q = some m ∧ (p, w') ∈ m.adjacentNodes)

/-- The search invariant: every registered node satisfies `NodeInv`. -/
def SearchInv (origin : Point) (S : SettledSet) (g : PointGraph) : Prop :=
  ∀ p n, g.get p = some n → NodeInv origin S g p n

/-- The part of the search invariant that survives the end of a run and is
preserved when the search is run AGAIN on the already-mutated graph (as
`route`'s second `shortestPath` call does): key coherence, non-negative
weights, the empty-path characterisation, paths starting at the origin,
recorded entry distances bounded by the node's own recorded distance
(which replaces the settled-set reasoning: entry distances only ever
decrease and a node's own distance changes only together with its whole
path), self-exclusion, and the final-entry edge into the node. -/
def WarmInv (origin : Point) (g : PointGraph) : Prop :=
  ∀ p n, g.get p = some n →
    n.data = p ∧
    (∀ a ∈ n.adjacentNodes, 0 ≤ a.2) ∧
    (n.shortestPath = [] → p = origin ∨ n.distance = MAX_SAFE_INTEGER) ∧
    (n.shortestPath ≠ [] → n.shortestPath.head? = some origin) ∧
    (∀ q ∈ n.shortestPath, nodeDistance g q ≤ n.distance) ∧
    p ∉ n.shortestPath ∧
    (n.shortestPath ≠ [] → ∃ q, n.shortestPath.getLast? = some q ∧
      ∃ m w', g.get q = some m ∧ (p, w') ∈ m.adjacentNodes)

/-- Two-node graph (0,0) — (2,0) with symmetric unit-distance-2 edges, in
the pristine state the builder produces. -/
def c6Graph : PointGraph :=
  ⟨((Batteries.RBMap.empty : Batteries.RBMap Point PointNode Point.cmp).insert
      ⟨0, 0⟩ ⟨⟨0, 0⟩, MAX_SAFE_INTEGER, [], [(⟨2, 0⟩, 2)]⟩).insert
      ⟨2, 0⟩ ⟨⟨2, 0⟩, MAX_SAFE_INTEGER, [], [(⟨0, 0⟩, 2)]⟩⟩

/-- Two-node graph (0,0) — (1,0) with symmetric unit-weight edges, in the
pristine state the builder produces. -/
def c9Graph : PointGraph :=
  ⟨((Batteries.RBMap.empty : Batteries.RBMap Point PointNode Point.cmp).insert
      ⟨0, 0⟩ ⟨⟨0, 0⟩, MAX_SAFE_INTEGER, [], [(⟨1, 0⟩, 1)]⟩).insert
      ⟨1, 0⟩ ⟨⟨1, 0⟩, MAX_SAFE_INTEGER, [], [(⟨0, 0⟩, 1)]⟩⟩

theorem qcmp_lt_of {a b : ℚ} (h : a < b) : qcmp a b = .lt := by
  unfold qcmp; rw [if_pos h]

theorem qcmp_gt_of {a b : ℚ} (h : b < a) : qcmp a b = .gt := by
  unfold qcmp; rw [if_neg (lt_asymm h), if_pos h]

theorem qcmp_eq_of {a b : ℚ} (h : a = b) : qcmp a b = .eq := by
  subst h; unfold qcmp; rw [if_neg (lt_irrefl a), if_neg (lt_irrefl a)]

theorem qcmp_eq_iff {a b : ℚ} : qcmp a b = .eq ↔ a = b := by
  constructor
  · intro h
    by_contra hne
    rcases lt_or_gt_of_ne hne with hlt | hgt
    · rw [qcmp_lt_of hlt] at h; cases h
    · rw [qcmp_gt_of hgt] at h; cases h
  · exact qcmp_eq_of

theorem qcmp_lt_iff {a b : ℚ} : qcmp a b = .lt ↔ a < b := by
  constructor
  · intro h
    rcases lt_trichotomy a b with hlt | heq | hgt
    · exact hlt
    · rw [qcmp_eq_of heq] at h; cases h
    · rw [qcmp_gt_of hgt] at h; cases h
  · exact qcmp_lt_of

theorem qcmp_gt_iff {a b : ℚ} : qcmp a b = .gt ↔ b < a := by
  constructor
  · intro h
    rcases lt_trichotomy a b with hlt | heq | hgt
    · rw [qcmp_lt_of hlt] at h; cases h
    · rw [qcmp_eq_of heq] at h; cases h
    · exact hgt
  · exact qcmp_gt_of

instance : Batteries.OrientedCmp qcmp where
  symm a b := by
    rcases lt_trichotomy a b with h | h | h
    · rw [qcmp_lt_of h, qcmp_gt_of h]; rfl
    · rw [qcmp_eq_of h, qcmp_eq_of h.symm]; rfl
    · rw [qcmp_gt_of h, qcmp_lt_of h]; rfl

instance : Batteries.TransCmp qcmp where
  le_trans {a b c} h₁ h₂ := by
    have hab : a ≤ b := not_lt.mp (fun h => h₁ (qcmp_gt_of h))
    have hbc : b ≤ c := not_lt.mp (fun h => h₂ (qcmp_gt_of h))
    intro h
    exact absurd (le_trans hab hbc) (not_le.mpr (qcmp_gt_iff.mp h))

theorem then_eq_eq {o₁ o₂ : Ordering} : o₁.then o₂ = .eq ↔ o₁ = .eq ∧ o₂ = .eq := by
  cases o₁ <;> simp [Ordering.then]

theorem Point.cmp_eq_iff {a b : Point} : Point.cmp a b = .eq ↔ a = b := by
  rw [Point.cmp, then_eq_eq, qcmp_eq_iff, qcmp_eq_iff]
  constructor
  · intro ⟨h₁, h₂⟩
    cases a; cases b; simp_all
  · intro h
    simp [h]

instance : Batteries.OrientedCmp Point.cmp where
  symm a b := by
    show ((qcmp a.x b.x).then (qcmp a.y b.y)).swap = (qcmp b.x a.x).then (qcmp b.y a.y)
    rw [← @Batteries.OrientedCmp.symm ℚ qcmp _ a.x b.x,
        ← @Batteries.OrientedCmp.symm ℚ qcmp _ a.y b.y]
    generalize qcmp a.x b.x = o₁
    generalize qcmp a.y b.y = o₂
    cases o₁ <;> cases o₂ <;> rfl

theorem Point.cmp_ne_gt_iff {a b : Point} :
    Point.cmp a b ≠ .gt ↔ a.x < b.x ∨ (a.x = b.x ∧ a.y ≤ b.y) := by
  rw [Point.cmp]
  cases hx : qcmp a.x b.x
  · simp only [Ordering.then, ne_eq, reduceCtorEq, not_false_eq_true, true_iff]
    exact Or.inl (qcmp_lt_iff.mp hx)
  · have hxx : a.x = b.x := qcmp_eq_iff.mp hx
    simp only [Ordering.then]
    constructor
    · intro h
      exact Or.inr ⟨hxx, not_lt.mp (fun hlt => h (qcmp_gt_of hlt))⟩
    · rintro (h | ⟨_, h⟩) hgt
      · exact absurd h (hxx ▸ lt_irrefl b.x)
      · exact absurd h (not_le.mpr (qcmp_gt_iff.mp hgt))
  · simp only [Ordering.then, ne_eq, not_true_eq_false, false_iff, not_or, not_and]
    have hxx : b.x < a.x := qcmp_gt_iff.mp hx
    exact ⟨not_lt.mpr (le_of_lt hxx), fun h => absurd h (ne_of_gt hxx)⟩

instance : Batteries.TransCmp Point.cmp where
  le_trans {a b c} h₁ h₂ := by
    rw [Point.cmp_ne_gt_iff] at h₁ h₂ ⊢
    rcases h₁ with h | ⟨hx, hy⟩ <;> rcases h₂ with h₂ | ⟨hx₂, hy₂⟩
    · exact Or.inl (lt_trans h h₂)
    · exact Or.inl (hx₂ ▸ h)
    · exact Or.inl (hx ▸ h₂)
    · exact Or.inr ⟨hx.trans hx₂, le_trans hy hy₂⟩

theorem distance_comm (a b : Point) : distance a b = distance b a := by
  unfold distance
  ring_nf

theorem getBend_total (a b c : Point) : ∃ d, getBend a b c = .ok d := by
  simp only [getBend]
  by_cases h₁ : (a.x = b.x ∧ b.x = c.x) ∨ (a.y = b.y ∧ b.y = c.y)
  · rw [if_pos h₁]; exact ⟨_, rfl⟩
  · rw [if_neg h₁]
    by_cases h₂ : ¬(a.x = b.x ∨ a.y = b.y) ∨ ¬(b.x = c.x ∨ b.y = c.y)
    · rw [if_pos h₂]; exact ⟨_, rfl⟩
    · rw [if_neg h₂]
      by_cases h₃ : a.y = b.y ∧ b.x = c.x
      · rw [if_pos h₃]; exact ⟨_, rfl⟩
      · rw [if_neg h₃]
        by_cases h₄ : a.x = b.x ∧ b.y = c.y
        · rw [if_pos h₄]; exact ⟨_, rfl⟩
        · exfalso
          push_neg at h₁ h₂ h₃ h₄
          rcases h₂.1 with hab | hab <;> rcases h₂.2 with hbc | hbc
          · exact (h₁.1 hab hbc).elim
          · exact (h₄ hab hbc).elim
          · exact (h₃ hab hbc).elim
          · exact (h₁.2 hab hbc).elim

theorem okBind {α β : Type} (a : α) (f : α → Except String β) :
    ((Except.ok a : Except String α) >>= f) = f a := rfl

theorem errBind {α β : Type} (e : String) (f : α → Except String β) :
    ((Except.error e : Except String α) >>= f) = Except.error e := rfl

theorem simplifyStep_eq_keepInterior (l : List Point) :
    ∀ prev, simplifyStep prev l = .ok (keepInterior prev l) := by
  induction l with
  | nil => intro prev; rfl
  | cons cur rest ih =>
    intro prev
    cases rest with
    | nil => rfl
    | cons next rest' =>
      obtain ⟨d, hd⟩ := getBend_total prev cur next
      simp only [simplifyStep, keepInterior, hd, ih cur, okBind]
      by_cases hnone : d = BendDirection.none
      · subst hnone; simp
      · simp [hnone]

theorem simplifyPath_eq_keepRule (pts : List Point) :
    simplifyPath pts = .ok (simplifyKeepRule pts) := by
  by_cases hlen : pts.length ≤ 2
  · simp [simplifyPath, simplifyKeepRule, hlen]
  · cases pts with
    | nil => simp at hlen
    | cons p₀ rest =>
      simp only [simplifyPath, simplifyKeepRule, if_neg hlen,
        simplifyStep_eq_keepInterior rest p₀]
      rfl

theorem simplifyPath_ok (pts : List Point) : ∃ r, simplifyPath pts = .ok r :=
  ⟨_, simplifyPath_eq_keepRule pts⟩

theorem keepInterior_mem (l₂ : List Point) (b c : Point) :
    ∀ (l₁ : List Point) (prev a : Point),
      getBend a b c ≠ .ok BendDirection.none →
      b ∈ keepInterior prev (l₁ ++ a :: b :: c :: l₂) := by
  intro l₁
  induction l₁ with
  | nil =>
    intro prev a hb
    show b ∈ keepInterior prev (a :: b :: c :: l₂)
    have hmem : b ∈ keepInterior a (b :: c :: l₂) := by
      rw [keepInterior, if_pos hb]
      exact List.mem_cons_self _ _
    rw [keepInterior]
    by_cases h : getBend prev a b ≠ .ok BendDirection.none
    · rw [if_pos h]; exact List.mem_cons_of_mem _ hmem
    · rw [if_neg h]; exact hmem
  | cons x l₁' ih =>
    intro prev a hb
    have htail : b ∈ keepInterior x (l₁' ++ a :: b :: c :: l₂) := ih x a hb
    cases l₁' with
    | nil =>
      show b ∈ keepInterior prev (x :: a :: b :: c :: l₂)
      rw [keepInterior]
      by_cases h : getBend prev x a ≠ .ok BendDirection.none
      · rw [if_pos h]; exact List.mem_cons_of_mem _ htail
      · rw [if_neg h]; exact htail
    | cons z l₁'' =>
      show b ∈ keepInterior prev (x :: z :: (l₁'' ++ a :: b :: c :: l₂))
      rw [keepInterior]
      by_cases h : getBend prev x z ≠ .ok BendDirection.none
      · rw [if_pos h]; exact List.mem_cons_of_mem _ htail
      · rw [if_neg h]; exact htail

/-- Claim C1, counterexample: for side=top the claim asserts
`x = shape.left + cp.distance`; on the shape `(left 0, top 0, 100 x 50)`
with `distance = 5`, `computePt` returns `x = 500 = left + width * 5`,
not `left + 5 = 5`. -/
theorem c1_computePt_counterexample :
    computePt ⟨⟨0, 0, 100, 50⟩, .top, 5⟩ = makePt 500 0 ∧
      ¬(computePt ⟨⟨0, 0, 100, 50⟩, .top, 5⟩).x = (0 : ℚ) + 5 := by
  exact ⟨by decide, by decide⟩

/-- Claim C1 as amended: for side=top, `computePt` yields
`y = shape.top` and `x = shape.left + shape.width * cp.distance`; for
side=bottom, `y = shape.bottom` and the same `x` — so for the horizontal
sides `distance` scales with the side's length (a 0-1 fraction reaches
the corners), while for the left/right sides (last two conjuncts) it is
an absolute offset `shape.top + cp.distance`. -/
theorem c1_computePt_amended (s : Rect) (d : ℚ) :
    computePt ⟨s, .top, d⟩ = makePt (s.left + s.width * d) s.top ∧
      computePt ⟨s, .bottom, d⟩ = makePt (s.left + s.width * d) (s.top + s.height) ∧
      computePt ⟨s, .left, d⟩ = makePt s.left (s.top + d) ∧
      computePt ⟨s, .right, d⟩ = makePt (s.left + s.width) (s.top + d) :=
  ⟨rfl, rfl, rfl, rfl⟩

/-- Claim C7 (code bug): the working bounds are never clipped against the
caller-supplied `globalBounds`.  The source's `Math.max`/`Math.min` calls
receive a single argument each (the identity), so the curated bounds
always equal the re-inflated union (first conjunct), and on `opts7` they
reach `right = 430`, far outside `globalBounds.right = 10` (the claim
asserts the working bounds never extend outside `globalBounds`). -/
theorem c7_bounds_never_clipped :
    (∀ opts, routeBounds opts = routeInflatedBounds opts) ∧
      routeBounds opts7 = ⟨-30, -30, 460, 260⟩ ∧
      (opts7.globalBounds).right < (routeBounds opts7).right := by
  refine ⟨fun opts => ?_, by decide, by decide⟩
  show Rectangle.fromLTRB _ _ _ _ = _
  cases h : routeInflatedBounds opts with
  | mk l t w hh =>
    simp only [Rectangle.fromLTRB, Rectangle.right, Rectangle.bottom, h,
      Rectangle.mk.injEq]
    refine ⟨trivial, trivial, by ring, by ring⟩

/-- Claim C8, counterexample to idempotence: on a polyline with repeated
points, the first pass removes the bracket run around `(0,2)` and keeps
`(0,2)` (its input triple is a genuine bend), after which `(0,2)` is
collinear with its new neighbours and a second pass removes it. -/
theorem c8_simplify_not_idempotent :
    simplifyPath [⟨0, 0⟩, ⟨5, 0⟩, ⟨5, 0⟩, ⟨5, 2⟩, ⟨5, 2⟩, ⟨3, 2⟩, ⟨0, 2⟩, ⟨0, 6⟩] =
        .ok [⟨0, 0⟩, ⟨0, 2⟩, ⟨0, 6⟩] ∧
      simplifyPath [⟨0, 0⟩, ⟨0, 2⟩, ⟨0, 6⟩] = .ok [⟨0, 0⟩, ⟨0, 6⟩] ∧
      ([⟨0, 0⟩, ⟨0, 6⟩] : List Point) ≠ [⟨0, 0⟩, ⟨0, 2⟩, ⟨0, 6⟩] := by
  exact ⟨by decide, by decide, by decide⟩

/-- Claim C8 as amended: `simplifyPath` keeps the first and last points and
keeps an interior point exactly when its bend classification against its
immediate neighbours in the input is not `none` (the `simplifyKeepRule`
function is that rule verbatim); idempotence, however, fails in general —
see the counterexample theorem. -/
theorem c8_simplify_keep_rule (pts : List Point) :
    simplifyPath pts = .ok (simplifyKeepRule pts) :=
  simplifyPath_eq_keepRule pts

/-- Claim C10: `getBend` always returns a value (the trailing `throw` is
unreachable), and `simplifyPath` retains an interior point whose triple is
classified `unknown` instead of failing. -/
theorem c10_getBend_total_unknown_retained :
    (∀ a b c : Point, ∃ d, getBend a b c = .ok d) ∧
      (∀ (l₁ : List Point) (a b c : Point) (l₂ : List Point),
        getBend a b c = .ok BendDirection.unknown →
        ∃ r, simplifyPath (l₁ ++ a :: b :: c :: l₂) = .ok r ∧ b ∈ r) := by
  refine ⟨getBend_total, fun l₁ a b c l₂ hu => ?_⟩
  refine ⟨simplifyKeepRule (l₁ ++ a :: b :: c :: l₂), simplifyPath_eq_keepRule _, ?_⟩
  have hbne : getBend a b c ≠ .ok BendDirection.none := by
    rw [hu]; intro h; cases h
  have hlen : ¬(l₁ ++ a :: b :: c :: l₂).length ≤ 2 := by
    simp [List.length_append]; omega
  rw [simplifyKeepRule.eq_def, if_neg hlen]
  cases l₁ with
  | nil =>
    show b ∈ a :: keepInterior a (b :: c :: l₂)
    refine List.mem_cons_of_mem _ ?_
    rw [keepInterior, if_pos hbne]
    exact List.mem_cons_self _ _
  | cons x l₁' =>
    show b ∈ x :: keepInterior x (l₁' ++ a :: b :: c :: l₂)
    exact List.mem_cons_of_mem _ (keepInterior_mem l₂ b c l₁' x a hbne)

/-- Claim C2: every relaxation of the edge source → candidate charges the
penalty `(edgeWeight+1)^2` exactly when the direction of the last edge of
the source's current path and the direction of the new edge are both
defined and differ, and the candidate's best distance and predecessor
chain are updated exactly when the penalized cost
`source.distance + edgeWeight + penalty` is strictly below the
candidate's current best distance. -/
theorem c2_relaxation_penalized (g : PointGraph) (evaluationNode sourceNode : Point)
    (w : ℚ) (src ev : PointNode)
    (hs : g.get sourceNode = some src) (he : g.get evaluationNode = some ev) :
    calculateMinimumDistance g evaluationNode w sourceNode =
      if src.distance + w + turnPenalty src ev w < ev.distance then
        ⟨g.index.insert evaluationNode
          { ev with
            distance := src.distance + w + turnPenalty src ev w,
            shortestPath := src.shortestPath ++ [src.data] }⟩
      else g := by
  have hcond :
      ((match inferPathDirection src, directionOf src.data ev.data with
        | some c, some go => decide (c ≠ go)
        | _, _ => false) = true) ↔
        (inferPathDirection src ≠ Option.none ∧ directionOf src.data ev.data ≠ Option.none ∧
          inferPathDirection src ≠ directionOf src.data ev.data) := by
    cases inferPathDirection src <;> cases directionOf src.data ev.data <;> simp
  simp only [calculateMinimumDistance, hs, he, turnPenalty]
  by_cases hch :
      inferPathDirection src ≠ Option.none ∧ directionOf src.data ev.data ≠ Option.none ∧
        inferPathDirection src ≠ directionOf src.data ev.data
  · rw [if_pos (hcond.mpr hch), if_pos hch]
  · rw [if_neg (fun h => hch (hcond.mp h)), if_neg hch]

/-- Witness for claim C2 on `c2Graph`: relaxing the edge to `(10,0)` with
weight 10 charges no penalty (the source has no recorded path) and updates
the candidate to distance 10 with predecessor chain `[(0,0)]`. -/
theorem c2_witness :
    calculateMinimumDistance c2Graph ⟨10, 0⟩ 10 ⟨0, 0⟩ =
      ⟨c2Graph.index.insert ⟨10, 0⟩ ⟨⟨10, 0⟩, 10, [⟨0, 0⟩], []⟩⟩ := by
  have h := c2_relaxation_penalized c2Graph ⟨10, 0⟩ ⟨0, 0⟩ 10
    ⟨⟨0, 0⟩, 0, [], []⟩ (PointNode.fresh ⟨10, 0⟩) (by decide) (by decide)
  rw [h, if_pos (by decide)]
  rfl

theorem find?_insert_point {β : Type} (m : Batteries.RBMap Point β Point.cmp)
    (k : Point) (v : β) (k' : Point) :
    (m.insert k v).find? k' = if k' = k then some v else m.find? k' := by
  rw [Batteries.RBMap.find?_insert]
  by_cases h : k' = k
  · rw [if_pos (Point.cmp_eq_iff.mpr h), if_pos h]
  · rw [if_neg (fun hc => h (Point.cmp_eq_iff.mp hc)), if_neg h]

theorem mem_setAdjacent_self (l : List (Point × ℚ)) (q : Point) (w : ℚ) :
    (q, w) ∈ setAdjacent l q w := by
  induction l with
  | nil => exact List.mem_singleton_self _
  | cons e rest ih =>
    rw [setAdjacent]
    by_cases h : e.1 = q
    · rw [if_pos h]; exact List.mem_cons_self _ _
    · rw [if_neg h]; exact List.mem_cons_of_mem _ ih

theorem mem_setAdjacent (l : List (Point × ℚ)) (q : Point) (w : ℚ) :
    ∀ e ∈ setAdjacent l q w, e ∈ l ∨ e = (q, w) := by
  induction l with
  | nil =>
    intro e he
    exact Or.inr (List.mem_singleton.mp he)
  | cons x rest ih =>
    intro e he
    rw [setAdjacent] at he
    by_cases h : x.1 = q
    · rw [if_pos h] at he
      rcases List.mem_cons.mp he with rfl | hrest
      · exact Or.inr rfl
      · exact Or.inl (List.mem_cons_of_mem _ hrest)
    · rw [if_neg h] at he
      rcases List.mem_cons.mp he with rfl | hrest
      · exact Or.inl (List.mem_cons_self _ _)
      · rcases ih e hrest with hmem | rfl
        · exact Or.inl (List.mem_cons_of_mem _ hmem)
        · exact Or.inr rfl

theorem mem_setAdjacent_of_ne (l : List (Point × ℚ)) (q : Point) (w : ℚ) :
    ∀ e ∈ l, e.1 ≠ q → e ∈ setAdjacent l q w := by
  induction l with
  | nil => intro e he; cases he
  | cons x rest ih =>
    intro e he hne
    rw [setAdjacent]
    by_cases h : x.1 = q
    · rw [if_pos h]
      rcases List.mem_cons.mp he with rfl | hrest
      · exact absurd h hne
      · exact List.mem_cons_of_mem _ hrest
    · rw [if_neg h]
      rcases List.mem_cons.mp he with rfl | hrest
      · exact List.mem_cons_self _ _
      · exact List.mem_cons_of_mem _ (ih e hrest hne)

theorem orthogonalPair_symm {u v : Point} (h : orthogonalPair u v) : orthogonalPair v u := by
  rcases h with ⟨hy, hx⟩ | ⟨hx, hy⟩
  · exact Or.inl ⟨hy.symm, fun he => hx he.symm⟩
  · exact Or.inr ⟨hx.symm, fun he => hy he.symm⟩

theorem orthogonalPair_ne {u v : Point} (h : orthogonalPair u v) : v ≠ u := by
  rcases h with ⟨_, hx⟩ | ⟨_, hy⟩
  · exact fun he => hx (congrArg Point.x he).symm
  · exact fun he => hy (congrArg Point.y he).symm

theorem edgeInv_empty : EdgeInv PointGraph.empty := by
  intro p n h
  rw [show PointGraph.empty.get p = Option.none from rfl] at h
  cases h

theorem get_add (g : PointGraph) (q p : Point) :
    (g.add q).get p =
      if g.has q then g.get p
      else if p = q then some (PointNode.fresh q) else g.get p := by
  rw [PointGraph.add]
  by_cases hq : g.has q
  · rw [if_pos hq, if_pos hq]
  · rw [if_neg hq, if_neg hq]
    exact find?_insert_point g.index q (PointNode.fresh q) p

theorem isSome_of_get_eq {g : PointGraph} {p : Point} {n : PointNode}
    (h : g.get p = some n) : g.has p = true := by
  rw [PointGraph.has, h]; rfl

theorem edgeInv_add (g : PointGraph) (q : Point) (h : EdgeInv g) : EdgeInv (g.add q) := by
  intro p n hget
  rw [get_add] at hget
  by_cases hq : g.has q
  · rw [if_pos hq] at hget
    obtain ⟨hdata, hedges⟩ := h p n hget
    refine ⟨hdata, fun e he => ?_⟩
    obtain ⟨haxis, hw, m, hm, hrev⟩ := hedges e he
    exact ⟨haxis, hw, m, by rw [get_add, if_pos hq]; exact hm, hrev⟩
  · rw [if_neg hq] at hget
    by_cases hpq : p = q
    · rw [if_pos hpq] at hget
      injection hget with hn
      subst hn
      exact ⟨hpq.symm, fun e he => absurd he (List.not_mem_nil e)⟩
    · rw [if_neg hpq] at hget
      obtain ⟨hdata, hedges⟩ := h p n hget
      refine ⟨hdata, fun e he => ?_⟩
      obtain ⟨haxis, hw, m, hm, hrev⟩ := hedges e he
      have hne : ¬(e.1 = q) := by
        intro heq
        rw [heq] at hm
        rw [PointGraph.has, hm] at hq
        exact hq rfl
      exact ⟨haxis, hw, m, by rw [get_add, if_neg hq, if_neg hne]; exact hm, hrev⟩

theorem connect_eq (g : PointGraph) (a b : Point) (na : PointNode)
    (hna : g.get a = some na) (hnb : (g.get b).isSome = true) :
    g.connect a b = .ok
      ⟨g.index.insert a
        { na with adjacentNodes := setAdjacent na.adjacentNodes b (distance a b) }⟩ := by
  obtain ⟨nb, hnb'⟩ := Option.isSome_iff_exists.mp hnb
  rw [PointGraph.connect, hna, hnb']

theorem connectBoth_spec (g : PointGraph) (cs : List Line) (a b : Point)
    (hax : orthogonalPair a b) (hinv : EdgeInv g)
    (na nb : PointNode) (hna : g.get a = some na) (hnb : g.get b = some nb) :
    ∃ g₂, connectBoth (g, cs) a b = .ok (g₂, cs ++ [⟨a, b⟩]) ∧ EdgeInv g₂ ∧
      ∀ p, ((g₂.get p).isSome ↔ (g.get p).isSome) := by
  have hba : b ≠ a := orthogonalPair_ne hax
  have hab : a ≠ b := fun h => hba h.symm
  have hcomm : distance b a = distance a b := distance_comm b a
  set A2 : PointNode :=
    { na with adjacentNodes := setAdjacent na.adjacentNodes b (distance a b) } with hA2
  set g₁ : PointGraph := ⟨g.index.insert a A2⟩ with hg₁
  have hget₁ : ∀ p, g₁.get p = if p = a then some A2 else g.get p := by
    intro p
    exact find?_insert_point g.index a A2 p
  have hc1 : g.connect a b = .ok g₁ :=
    connect_eq g a b na hna (by rw [hnb]; rfl)
  have hg₁b : g₁.get b = some nb := by rw [hget₁, if_neg hba]; exact hnb
  have hg₁a : g₁.get a = some A2 := by rw [hget₁, if_pos rfl]
  set B2 : PointNode :=
    { nb with adjacentNodes := setAdjacent nb.adjacentNodes a (distance b a) } with hB2
  set g₂ : PointGraph := ⟨g₁.index.insert b B2⟩ with hg₂def
  have hc2 : g₁.connect b a = .ok g₂ :=
    connect_eq g₁ b a nb hg₁b (by rw [hg₁a]; rfl)
  have hget₂ : ∀ p, g₂.get p = if p = b then some B2 else if p = a then some A2 else g.get p := by
    intro p
    show (g₁.index.insert b B2).find? p = _
    rw [find?_insert_point]
    by_cases hpb : p = b
    · rw [if_pos hpb, if_pos hpb]
    · rw [if_neg hpb, if_neg hpb]; exact hget₁ p
  have hdata_a : na.data = a := (hinv a na hna).1
  have hdata_b : nb.data = b := (hinv b nb hnb).1
  refine ⟨g₂, ?_, ?_, ?_⟩
  · simp only [connectBoth, hc1, okBind, hc2]
  · -- EdgeInv g₂
    intro p n hget
    rw [hget₂] at hget
    by_cases hpb : p = b
    · rw [if_pos hpb] at hget
      injection hget with hn
      subst hn
      rw [hpb]
      refine ⟨hdata_b, fun e he => ?_⟩
      rcases mem_setAdjacent _ _ _ e he with hold | hnew
      · obtain ⟨haxis, hw, m, hm, hrev⟩ := (hinv b nb hnb).2 e hold
        by_cases hea : e.1 = a
        · refine ⟨haxis, hw, A2, ?_, ?_⟩
          · rw [hget₂, hea, if_neg hab, if_pos rfl]
          · rw [hA2]
            have he2 : e.2 = distance a b := by rw [hw, hea, distance_comm]
            rw [he2]
            exact mem_setAdjacent_self _ _ _
        · have heb : ¬(e.1 = b) := orthogonalPair_ne haxis
          refine ⟨haxis, hw, m, ?_, hrev⟩
          rw [hget₂, if_neg heb, if_neg hea]
          exact hm
      · rw [hnew]
        refine ⟨orthogonalPair_symm hax, rfl, A2, ?_, ?_⟩
        · show g₂.get a = some A2
          rw [hget₂, if_neg hab, if_pos rfl]
        · rw [hA2, hcomm]
          exact mem_setAdjacent_self _ _ _
    · rw [if_neg hpb] at hget
      by_cases hpa : p = a
      · rw [if_pos hpa] at hget
        injection hget with hn
        subst hn
        rw [hpa]
        refine ⟨hdata_a, fun e he => ?_⟩
        rcases mem_setAdjacent _ _ _ e he with hold | hnew
        · obtain ⟨haxis, hw, m, hm, hrev⟩ := (hinv a na hna).2 e hold
          by_cases heb : e.1 = b
          · refine ⟨haxis, hw, B2, ?_, ?_⟩
            · rw [hget₂, if_pos heb]
            · rw [hB2]
              have he2 : e.2 = distance b a := by rw [hw, heb, hcomm]
              rw [he2]
              exact mem_setAdjacent_self _ _ _
          · have hea : ¬(e.1 = a) := orthogonalPair_ne haxis
            refine ⟨haxis, hw, m, ?_, hrev⟩
            rw [hget₂, if_neg heb, if_neg hea]
            exact hm
        · rw [hnew]
          refine ⟨hax, rfl, B2, ?_, ?_⟩
          · show g₂.get b = some B2
            rw [hget₂, if_pos rfl]
          · rw [hB2, ← hcomm]
            exact mem_setAdjacent_self _ _ _
      · rw [if_neg hpa] at hget
        obtain ⟨hdata, hedges⟩ := hinv p n hget
        refine ⟨hdata, fun e he => ?_⟩
        obtain ⟨haxis, hw, m, hm, hrev⟩ := hedges e he
        by_cases heb : e.1 = b
        · refine ⟨haxis, hw, B2, ?_, ?_⟩
          · rw [hget₂, if_pos heb]
          · rw [hB2]
            have hmnb : m = nb := by
              rw [heb] at hm
              rw [hm] at hnb
              injection hnb
            refine mem_setAdjacent_of_ne _ _ _ (p, e.2) ?_ hpa
            rw [hmnb] at hrev
            exact hrev
        · by_cases hea : e.1 = a
          · refine ⟨haxis, hw, A2, ?_, ?_⟩
            · rw [hget₂, if_neg heb, if_pos hea]
            · rw [hA2]
              have hmna : m = na := by
                rw [hea] at hm
                rw [hm] at hna
                injection hna
              refine mem_setAdjacent_of_ne _ _ _ (p, e.2) ?_ hpb
              rw [hmna] at hrev
              exact hrev
          · refine ⟨haxis, hw, m, ?_, hrev⟩
            rw [hget₂, if_neg heb, if_neg hea]
            exact hm
  · intro p
    rw [hget₂]
    by_cases hpb : p = b
    · rw [if_pos hpb, hpb, hnb]; simp
    · rw [if_neg hpb]
      by_cases hpa : p = a
      · rw [if_pos hpa, hpa, hna]; simp
      · rw [if_neg hpa]

theorem foldlM_except_inv {α β : Type} (P : β → Prop) (f : β → α → Except String β) :
    ∀ l : List α, (∀ b a, a ∈ l → P b → ∃ b', f b a = .ok b' ∧ P b') →
      ∀ b₀, P b₀ → ∃ b₁, l.foldlM f b₀ = .ok b₁ ∧ P b₁ := by
  intro l
  induction l with
  | nil => intro _ b₀ h; exact ⟨b₀, rfl, h⟩
  | cons a rest ih =>
    intro hstep b₀ h
    obtain ⟨b₁, hf, hP⟩ := hstep b₀ a (List.mem_cons_self _ _) h
    obtain ⟨b₂, hr, hP₂⟩ :=
      ih (fun b a' ha' hb => hstep b a' (List.mem_cons_of_mem _ ha') hb) b₁ hP
    refine ⟨b₂, ?_, hP₂⟩
    rw [List.foldlM_cons, hf]
    exact hr

theorem addUnique_nodup (l : List ℚ) (x : ℚ) (h : l.Nodup) : (addUnique l x).Nodup := by
  rw [addUnique]
  by_cases hx : x ∈ l
  · rw [if_pos hx]; exact h
  · rw [if_neg hx]
    simp [List.nodup_append, h, hx]

theorem addUnique_fold_nodup (spots : List Point) (f : Point → ℚ) :
    ∀ l₀ : List ℚ, l₀.Nodup →
      (spots.foldl (fun acc p => addUnique acc (f p)) l₀).Nodup := by
  induction spots with
  | nil => intro l₀ h; exact h
  | cons s rest ih =>
    intro l₀ h
    exact ih (addUnique l₀ (f s)) (addUnique_nodup l₀ (f s) h)

theorem zipPrev_ne (l : List ℚ) :
    ∀ o : Option ℚ, l.Nodup → (∀ p, o = some p → p ∉ l) →
      ∀ e ∈ (o :: l.map some).zip l, ∀ p, e.1 = some p → p ≠ e.2 := by
  induction l with
  | nil => intro o _ _ e he; cases he
  | cons y ys ih =>
    intro o hnd ho e he p hp
    rw [show (o :: (y :: ys).map some).zip (y :: ys) =
        (o, y) :: (some y :: ys.map some).zip ys from rfl] at he
    rcases List.mem_cons.mp he with rfl | hrest
    · intro hcontra
      exact (ho p hp) (by rw [hcontra]; exact List.mem_cons_self _ _)
    · refine ih (some y) (List.Nodup.of_cons hnd) ?_ e hrest p hp
      intro q hq
      injection hq with hq
      rw [← hq]
      exact (List.nodup_cons.mp hnd).1

theorem withPrev_ne (l : List ℚ) (hnd : l.Nodup) :
    ∀ e ∈ withPrev l, ∀ p, e.1 = some p → p ≠ e.2 :=
  zipPrev_ne l Option.none hnd (fun _ hp => by cases hp)

theorem get_add_isSome (g : PointGraph) (q p : Point) :
    ((g.add q).get p).isSome ↔ ((g.get p).isSome ∨ p = q) := by
  rw [get_add]
  by_cases hq : g.has q
  · rw [if_pos hq]
    constructor
    · exact Or.inl
    · rintro (h | rfl)
      · exact h
      · exact hq
  · rw [if_neg hq]
    by_cases hpq : p = q
    · rw [if_pos hpq]; simp [hpq]
    · rw [if_neg hpq]; simp [hpq]

theorem edgeInv_addFold (spots : List Point) :
    ∀ g₀, EdgeInv g₀ → EdgeInv (spots.foldl PointGraph.add g₀) := by
  induction spots with
  | nil => intro g₀ h; exact h
  | cons s rest ih => intro g₀ h; exact ih (g₀.add s) (edgeInv_add g₀ s h)

theorem get_addFold (spots : List Point) :
    ∀ g₀ p, (((spots.foldl PointGraph.add g₀).get p).isSome ↔
      ((g₀.get p).isSome ∨ p ∈ spots)) := by
  induction spots with
  | nil => intro g₀ p; simp
  | cons s rest ih =>
    intro g₀ p
    rw [List.foldl_cons, ih (g₀.add s) p, get_add_isSome]
    constructor
    · rintro ((h | rfl) | h)
      · exact Or.inl h
      · exact Or.inr (List.mem_cons_self _ _)
      · exact Or.inr (List.mem_cons_of_mem _ h)
    · rintro (h | h)
      · exact Or.inl (Or.inl h)
      · rcases List.mem_cons.mp h with rfl | h
        · exact Or.inl (Or.inr rfl)
        · exact Or.inr h

/-- Main structural specification of `createGraph`: it always succeeds,
every node record carries its key, every edge is strictly axis-aligned
with Euclidean weight and a same-weight reverse edge, and the node set is
exactly the spot set. -/
theorem createGraph_spec (spots : List Point) :
    ∃ gc, createGraph spots = .ok gc ∧
      (∀ p n, gc.1.get p = some n → n.data = p ∧
        ∀ e ∈ n.adjacentNodes,
          orthogonalPair p e.1 ∧
          e.2 = distance p e.1 ∧
          ∃ m, gc.1.get e.1 = some m ∧ (p, e.2) ∈ m.adjacentNodes) ∧
      (∀ p, ((gc.1.get p).isSome ↔ p ∈ spots)) := by
  rw [createGraph]
  set hotXs := (spots.foldl (fun acc p => addUnique acc p.x) []).insertionSort (· ≤ ·) with hX
  set hotYs := (spots.foldl (fun acc p => addUnique acc p.y) []).insertionSort (· ≤ ·) with hY
  set graph₀ := spots.foldl PointGraph.add PointGraph.empty with hG
  have hndX : hotXs.Nodup := by
    rw [hX]
    refine (List.Perm.nodup_iff (List.perm_insertionSort _ _)).mpr ?_
    exact addUnique_fold_nodup spots (fun p => p.x) [] List.nodup_nil
  have hndY : hotYs.Nodup := by
    rw [hY]
    refine (List.Perm.nodup_iff (List.perm_insertionSort _ _)).mpr ?_
    exact addUnique_fold_nodup spots (fun p => p.y) [] List.nodup_nil
  set P : PointGraph × List Line → Prop :=
    fun acc => EdgeInv acc.1 ∧ ∀ p, ((acc.1.get p).isSome ↔ p ∈ spots) with hP
  have hP₀ : P (graph₀, []) := by
    constructor
    · exact edgeInv_addFold spots PointGraph.empty edgeInv_empty
    · intro p
      rw [hG, get_addFold spots PointGraph.empty p]
      have hempty : ((PointGraph.empty.get p).isSome = false) := rfl
      rw [hempty]
      simp
  have hconnect : ∀ (acc : PointGraph × List Line) (a b : Point),
      orthogonalPair a b → P acc → (acc.1.has a) = true → (acc.1.has b) = true →
      ∃ acc', connectBoth acc a b = .ok acc' ∧ P acc' := by
    intro acc a b hax hPacc hhasa hhasb
    obtain ⟨na, hna⟩ := Option.isSome_iff_exists.mp hhasa
    obtain ⟨nb, hnb⟩ := Option.isSome_iff_exists.mp hhasb
    obtain ⟨g₂, hcb, hinv₂, hkeys⟩ :=
      connectBoth_spec acc.1 acc.2 a b hax hPacc.1 na nb hna hnb
    refine ⟨(g₂, acc.2 ++ [⟨a, b⟩]), by rw [← hcb], hinv₂, ?_⟩
    intro p
    rw [hkeys p]
    exact hPacc.2 p
  have hinner : ∀ (yp : Option ℚ × ℚ), yp ∈ withPrev hotYs →
      ∀ (acc : PointGraph × List Line), P acc →
      ∃ acc', (withPrev hotXs).foldlM
        (fun acc₂ xp =>
          let b := makePt xp.2 yp.2
          if acc₂.1.has b then do
            let acc₃ ←
              match xp.1 with
              | some px =>
                  let a := makePt px yp.2
                  if acc₂.1.has a then connectBoth acc₂ a b else .ok acc₂
              | Option.none => .ok acc₂
            match yp.1 with
            | some py =>
                let a := makePt b.x py
                if acc₃.1.has a then connectBoth acc₃ a b else .ok acc₃
            | Option.none => .ok acc₃
          else .ok acc₂) acc = .ok acc' ∧ P acc' := by
    intro yp hyp acc hPacc
    refine foldlM_except_inv P _ (withPrev hotXs) ?_ acc hPacc
    intro acc₂ xp hxp hPacc₂
    have hspot : ∀ (acc' : PointGraph × List Line) (p : Point), P acc' →
        acc₂.1.has p = true → acc'.1.has p = true := by
      intro acc' p hP' hhas
      exact (hP'.2 p).mpr ((hPacc₂.2 p).mp hhas)
    by_cases hb : acc₂.1.has (makePt xp.2 yp.2) = true
    · simp only [if_pos hb]
      cases hxp1 : xp.1 with
      | none =>
        cases hyp1 : yp.1 with
        | none => exact ⟨acc₂, rfl, hPacc₂⟩
        | some py =>
          by_cases ha : acc₂.1.has (makePt (makePt xp.2 yp.2).x py) = true
          · have hne : py ≠ yp.2 := withPrev_ne hotYs hndY yp hyp py hyp1
            obtain ⟨acc₄, hcb, hP₄⟩ :=
              hconnect acc₂ (makePt (makePt xp.2 yp.2).x py) (makePt xp.2 yp.2)
                (Or.inr ⟨rfl, hne⟩) hPacc₂ ha hb
            refine ⟨acc₄, ?_, hP₄⟩
            simp only [okBind, if_pos ha, hcb]
          · refine ⟨acc₂, ?_, hPacc₂⟩
            simp only [okBind, if_neg ha]
      | some px =>
        by_cases ha₁ : acc₂.1.has (makePt px yp.2) = true
        · have hne₁ : px ≠ xp.2 := withPrev_ne hotXs hndX xp hxp px hxp1
          obtain ⟨acc₃, hcb₁, hP₃⟩ :=
            hconnect acc₂ (makePt px yp.2) (makePt xp.2 yp.2)
              (Or.inl ⟨rfl, hne₁⟩) hPacc₂ ha₁ hb
          simp only [if_pos ha₁, hcb₁, okBind]
          cases hyp1 : yp.1 with
          | none => exact ⟨acc₃, rfl, hP₃⟩
          | some py =>
            by_cases ha₂ : acc₃.1.has (makePt (makePt xp.2 yp.2).x py) = true
            · have hne₂ : py ≠ yp.2 := withPrev_ne hotYs hndY yp hyp py hyp1
              obtain ⟨acc₄, hcb₂, hP₄⟩ :=
                hconnect acc₃ (makePt (makePt xp.2 yp.2).x py) (makePt xp.2 yp.2)
                  (Or.inr ⟨rfl, hne₂⟩) hP₃ ha₂ (hspot acc₃ _ hP₃ hb)
              refine ⟨acc₄, ?_, hP₄⟩
              simp only [okBind, if_pos ha₂, hcb₂]
            · refine ⟨acc₃, ?_, hP₃⟩
              simp only [okBind, if_neg ha₂]
        · simp only [okBind, if_neg ha₁]
          cases hyp1 : yp.1 with
          | none => exact ⟨acc₂, rfl, hPacc₂⟩
          | some py =>
            by_cases ha₂ : acc₂.1.has (makePt (makePt xp.2 yp.2).x py) = true
            · have hne₂ : py ≠ yp.2 := withPrev_ne hotYs hndY yp hyp py hyp1
              obtain ⟨acc₄, hcb₂, hP₄⟩ :=
                hconnect acc₂ (makePt (makePt xp.2 yp.2).x py) (makePt xp.2 yp.2)
                  (Or.inr ⟨rfl, hne₂⟩) hPacc₂ ha₂ hb
              refine ⟨acc₄, ?_, hP₄⟩
              simp only [okBind, if_pos ha₂, hcb₂]
            · refine ⟨acc₂, ?_, hPacc₂⟩
              simp only [okBind, if_neg ha₂]
    · simp only [if_neg hb]
      exact ⟨acc₂, rfl, hPacc₂⟩
  obtain ⟨accF, hfold, hPF⟩ :=
    foldlM_except_inv P _ (withPrev hotYs)
      (fun acc yp hyp hPacc => hinner yp hyp acc hPacc) (graph₀, []) hP₀
  exact ⟨accF, hfold, hPF.1, hPF.2⟩

/-- Claim C4: for every spot set, `createGraph` succeeds and produces a
graph in which every stored node record carries its own coordinate (the
map is keyed by exact coordinates — at most one node per coordinate),
every edge connects two nodes sharing exactly one coordinate (never a
diagonal), every edge has its reverse edge with the same weight (the
Euclidean distance of the pair), and the node set is exactly the spot
set. -/
theorem c4_graph_invariants (spots : List Point) :
    ∃ gc, createGraph spots = .ok gc ∧
      (∀ p n, gc.1.get p = some n → n.data = p ∧
        ∀ e ∈ n.adjacentNodes,
          orthogonalPair p e.1 ∧
          e.2 = distance p e.1 ∧
          ∃ m, gc.1.get e.1 = some m ∧ (p, e.2) ∈ m.adjacentNodes) ∧
      (∀ p, ((gc.1.get p).isSome ↔ p ∈ spots)) :=
  createGraph_spec spots

/-- Witness for claim C4 on the two-spot set `(0,0), (10,0)`. -/
theorem c4_witness :
    ∃ gc, createGraph [⟨0, 0⟩, ⟨10, 0⟩] = .ok gc ∧
      (∀ p n, gc.1.get p = some n → n.data = p ∧
        ∀ e ∈ n.adjacentNodes,
          orthogonalPair p e.1 ∧
          e.2 = distance p e.1 ∧
          ∃ m, gc.1.get e.1 = some m ∧ (p, e.2) ∈ m.adjacentNodes) ∧
      (∀ p, ((gc.1.get p).isSome ↔ p ∈ [⟨0, 0⟩, ⟨10, 0⟩])) :=
  c4_graph_invariants [⟨0, 0⟩, ⟨10, 0⟩]

theorem calcMin_keys (g : PointGraph) (evp srcp : Point) (w : ℚ) (p : Point) :
    (((calculateMinimumDistance g evp w srcp).get p).isSome) = ((g.get p).isSome) := by
  rw [calculateMinimumDistance]
  cases hs : g.get srcp with
  | none => rfl
  | some src =>
    cases he : g.get evp with
    | none => rfl
    | some ev =>
      simp only []
      split
      · split
        · show ((g.index.insert evp _).find? p).isSome = ((g.get p).isSome)
          rw [find?_insert_point]
          by_cases hp : p = evp
          · rw [if_pos hp, hp, he]; rfl
          · rw [if_neg hp]; rfl
        · rfl
      · split
        · show ((g.index.insert evp _).find? p).isSome = ((g.get p).isSome)
          rw [find?_insert_point]
          by_cases hp : p = evp
          · rw [if_pos hp, hp, he]; rfl
          · rw [if_neg hp]; rfl
        · rfl

theorem relaxAdjacent_keys (adj : List (Point × ℚ)) :
    ∀ (settled : SettledSet) (cur : Point) (g : PointGraph) (un : List Point) (p : Point),
      ((relaxAdjacent settled cur adj g un).1.get p).isSome = ((g.get p).isSome) := by
  induction adj with
  | nil => intro settled cur g un p; rfl
  | cons e rest ih =>
    intro settled cur g un p
    rw [relaxAdjacent, List.foldl_cons]
    by_cases hs : settledHas settled e.1 = true
    · rw [if_pos hs]
      exact ih settled cur g un p
    · rw [if_neg hs]
      have := ih settled cur (calculateMinimumDistance g e.1 e.2 cur) (setAdd un e.1) p
      rw [relaxAdjacent] at this
      rw [this, calcMin_keys]

theorem dijkstraLoop_keys :
    ∀ (fuel : Nat) (g : PointGraph) (settled : SettledSet) (un : List Point) (g' : PointGraph),
      dijkstraLoop fuel g settled un = .ok g' →
      ∀ p, ((g'.get p).isSome = ((g.get p).isSome)) := by
  intro fuel
  induction fuel with
  | zero =>
    intro g settled un g' h p
    injection h with h
    rw [h]
  | succ fuel ih =>
    intro g settled un g' h p
    rw [dijkstraLoop] at h
    by_cases hemp : un.isEmpty = true
    · rw [if_pos hemp] at h
      injection h with h
      rw [h]
    · rw [if_neg hemp] at h
      cases hlow : getLowestDistanceNode g un with
      | none => rw [hlow] at h; cases h
      | some cur =>
        rw [hlow] at h
        have := ih _ _ _ _ h p
        rw [this, relaxAdjacent_keys]

theorem dijkstraLoop_error :
    ∀ (fuel : Nat) (g : PointGraph) (settled : SettledSet) (un : List Point) (e : String),
      dijkstraLoop fuel g settled un = .error e → e = nullErrorMsg := by
  intro fuel
  induction fuel with
  | zero => intro g settled un e h; cases h
  | succ fuel ih =>
    intro g settled un e h
    rw [dijkstraLoop] at h
    by_cases hemp : un.isEmpty = true
    · rw [if_pos hemp] at h; cases h
    · rw [if_neg hemp] at h
      cases hlow : getLowestDistanceNode g un with
      | none =>
        rw [hlow] at h
        injection h with h
        exact h.symm
      | some cur =>
        rw [hlow] at h
        exact ih _ _ _ _ h

theorem calcSSSP_keys (g : PointGraph) (s : Point) (g' : PointGraph)
    (h : calculateShortestPathFromSource g s = .ok g') (p : Point) :
    ((g'.get p).isSome = ((g.get p).isSome)) := by
  rw [calculateShortestPathFromSource] at h
  cases hs : g.get s with
  | none =>
    rw [hs] at h
    exact dijkstraLoop_keys _ _ _ _ _ h p
  | some n =>
    rw [hs] at h
    have := dijkstraLoop_keys _ _ _ _ _ h p
    rw [this]
    show ((g.index.insert s _).find? p).isSome = _
    rw [find?_insert_point]
    by_cases hp : p = s
    · rw [if_pos hp, hp, hs]; rfl
    · rw [if_neg hp]; rfl

theorem calcSSSP_error (g : PointGraph) (s : Point) (e : String)
    (h : calculateShortestPathFromSource g s = .error e) : e = nullErrorMsg := by
  rw [calculateShortestPathFromSource] at h
  cases hs : g.get s with
  | none =>
    rw [hs] at h
    exact dijkstraLoop_error _ _ _ _ _ h
  | some n =>
    rw [hs] at h
    exact dijkstraLoop_error _ _ _ _ _ h

theorem get_mem_toList (g : PointGraph) (p : Point) (n : PointNode)
    (h : g.get p = some n) : (p, n) ∈ g.index.toList := by
  obtain ⟨y, hy, he⟩ := Batteries.RBMap.find?_some_mem_toList h
  rw [Point.cmp_eq_iff] at he
  rw [he]
  exact hy

theorem settledHas_insert (S : SettledSet) (c q : Point) :
    settledHas (S.insert c ()) q = true ↔ settledHas S q = true ∨ q = c := by
  rw [settledHas, settledHas, find?_insert_point]
  by_cases h : q = c
  · simp [h]
  · simp [h]

theorem get_mk_insert (g : PointGraph) (ev : Point) (x : PointNode) (p : Point) :
    PointGraph.get ⟨g.index.insert ev x⟩ p = if p = ev then some x else g.get p := by
  show (g.index.insert ev x).find? p = _
  rw [find?_insert_point]
  rfl

theorem searchInv_insertSettled (origin c : Point) (S : SettledSet) (g : PointGraph)
    (h : SearchInv origin S g) : SearchInv origin (S.insert c ()) g := by
  intro p n hp
  obtain ⟨h1, h2, h3, h4, h5, h6, h7, h8⟩ := h p n hp
  exact ⟨h1, h2, h3, h4,
    fun q hq => (settledHas_insert S c q).mpr (Or.inl (h5 q hq)), h6, h7, h8⟩

theorem getLowest_fold (g : PointGraph) :
    ∀ (l : List Point) (acc : Option Point × ℚ),
      acc.2 ≤ MAX_SAFE_INTEGER →
      (∀ q, acc.1 = some q → acc.2 = nodeDistance g q ∧ acc.2 < MAX_SAFE_INTEGER) →
      (l.foldl
        (fun acc p => if nodeDistance g p < acc.2 then (some p, nodeDistance g p) else acc)
        acc).2 ≤ MAX_SAFE_INTEGER ∧
      ∀ q, (l.foldl
        (fun acc p => if nodeDistance g p < acc.2 then (some p, nodeDistance g p) else acc)
        acc).1 = some q →
        (l.foldl
          (fun acc p => if nodeDistance g p < acc.2 then (some p, nodeDistance g p) else acc)
          acc).2 = nodeDistance g q ∧
        (l.foldl
          (fun acc p => if nodeDistance g p < acc.2 then (some p, nodeDistance g p) else acc)
          acc).2 < MAX_SAFE_INTEGER := by
  intro l
  induction l with
  | nil => intro acc h1 h2; exact ⟨h1, h2⟩
  | cons p rest ih =>
    intro acc h1 h2
    rw [List.foldl_cons]
    by_cases hlt : nodeDistance g p < acc.2
    · rw [if_pos hlt]
      refine ih (some p, nodeDistance g p) (le_of_lt (lt_of_lt_of_le hlt h1)) ?_
      intro q hq
      injection hq with hq
      rw [← hq]
      exact ⟨rfl, lt_of_lt_of_le hlt h1⟩
    · rw [if_neg hlt]
      exact ih acc h1 h2

theorem getLowest_lt (g : PointGraph) (U : List Point) (p : Point)
    (h : getLowestDistanceNode g U = some p) :
    nodeDistance g p < MAX_SAFE_INTEGER := by
  rw [getLowestDistanceNode] at h
  obtain ⟨_, h2⟩ := getLowest_fold g U (Option.none, MAX_SAFE_INTEGER) (le_refl _)
    (by intro q hq; cases hq)
  obtain ⟨heq, hlt⟩ := h2 p h
  rw [heq] at hlt
  exact hlt

theorem nodeDistance_congr (g g0 : PointGraph) (c : Point) (h : g.get c = g0.get c) :
    nodeDistance g c = nodeDistance g0 c := by
  rw [nodeDistance, nodeDistance, h]

theorem nodeDistance_of_get (g : PointGraph) (p : Point) (n : PointNode)
    (h : g.get p = some n) : nodeDistance g p = n.distance := by
  rw [nodeDistance, h]

/-- Preservation of the search invariant by a successful relaxation: when
`calculateMinimumDistance` fires its update for the unsettled node `ev`
against the current node `c`, the invariant carries over to the graph with
the re-inserted record, and `c`'s own record is untouched. -/
theorem calcMin_update_inv (origin c ev : Point) (w extra : ℚ) (S : SettledSet)
    (g : PointGraph) (src evn : PointNode)
    (hgc : g.get c = some src) (hge : g.get ev = some evn)
    (hw : 0 ≤ w) (hextra : 0 ≤ extra)
    (hevS : settledHas S ev = false)
    (hadj : (ev, w) ∈ src.adjacentNodes)
    (hcd : nodeDistance g c < MAX_SAFE_INTEGER)
    (hlt : src.distance + w + extra < evn.distance)
    (hInv : SearchInv origin (S.insert c ()) g) :
    SearchInv origin (S.insert c ())
      ⟨g.index.insert ev
        { evn with distance := src.distance + w + extra,
                   shortestPath := src.shortestPath ++ [src.data] }⟩ ∧
    PointGraph.get
      (⟨g.index.insert ev
        { evn with distance := src.distance + w + extra,
                   shortestPath := src.shortestPath ++ [src.data] }⟩ : PointGraph) c =
      g.get c := by
  obtain ⟨h1c, h2c, h3c, h4c, h5c, h6c, h7c, h8c⟩ := hInv c src hgc
  have h_ev := hInv ev evn hge
  set nr : PointNode :=
    { evn with distance := src.distance + w + extra,
               shortestPath := src.shortestPath ++ [src.data] } with hnr
  set g2 : PointGraph := ⟨g.index.insert ev nr⟩ with hg2
  have hevc : ev ≠ c := by
    intro he
    rw [he, hgc] at hge
    injection hge with hge
    rw [← hge] at hlt
    linarith
  have hS' : ∀ q : Point, settledHas (S.insert c ()) q = true → q ≠ ev := by
    intro q hq hqe
    rcases (settledHas_insert S c q).mp hq with h | h
    · rw [hqe] at h
      rw [h] at hevS
      cases hevS
    · exact hevc (hqe ▸ h)
  have hdc : nodeDistance g c = src.distance := nodeDistance_of_get g c src hgc
  have hg2get : ∀ x : Point, g2.get x = if x = ev then some nr else g.get x :=
    fun x => get_mk_insert g ev nr x
  have hnd2 : ∀ x : Point, x ≠ ev → nodeDistance g2 x = nodeDistance g x := by
    intro x hx
    rw [nodeDistance, nodeDistance, hg2get, if_neg hx]
  have hnd2ev : nodeDistance g2 ev = src.distance + w + extra := by
    rw [nodeDistance, hg2get, if_pos rfl]
  have hnewset : ∀ q ∈ src.shortestPath ++ [src.data],
      settledHas (S.insert c ()) q = true := by
    intro q hq
    rcases List.mem_append.mp hq with h | h
    · exact h5c q h
    · rw [List.mem_singleton.mp h, h1c]
      exact (settledHas_insert S c c).mpr (Or.inr rfl)
  have hnemem : ∀ x ∈ src.shortestPath ++ [src.data], x ≠ ev :=
    fun x hx => hS' x (hnewset x hx)
  constructor
  · intro p n hp
    rw [hg2get] at hp
    by_cases hpe : p = ev
    · rw [if_pos hpe] at hp
      injection hp with hp
      subst hpe
      rw [← hp]
      refine ⟨h_ev.1, h_ev.2.1, ?_, ?_, hnewset, ?_, ?_, ?_⟩
      · intro habs
        exact absurd habs (by simp)
      · intro _
        show (src.shortestPath ++ [src.data]).head? = some origin
        cases hsp : src.shortestPath with
        | nil =>
          have hcor : c = origin := by
            rcases h3c hsp with h | h
            · exact h
            · rw [h] at hdc
              rw [hdc] at hcd
              exact absurd hcd (lt_irrefl _)
          rw [List.nil_append, List.head?_cons, h1c, hcor]
        | cons a l =>
          have hha := h4c (by rw [hsp]; exact List.cons_ne_nil a l)
          rw [hsp, List.head?_cons] at hha
          rw [List.cons_append, List.head?_cons]
          exact hha
      · show p ∉ src.shortestPath ++ [src.data]
        exact fun hmem => hnemem p hmem rfl
      · show List.Chain' (fun a b => a ≤ b)
          (((src.shortestPath ++ [src.data]) ++ [p]).map (nodeDistance g2))
        rw [List.map_append]
        rw [show (src.shortestPath ++ [src.data]).map (nodeDistance g2) =
            (src.shortestPath ++ [src.data]).map (nodeDistance g) from
          List.map_congr_left (fun x hx => hnd2 x (hnemem x hx))]
        rw [show ([p]).map (nodeDistance g2) = [src.distance + w + extra] from by
          rw [List.map_cons, List.map_nil, hnd2ev]]
        rw [List.chain'_append]
        refine ⟨by rw [h1c]; exact h7c, List.chain'_singleton _, ?_⟩
        intro x hx y hy
        rw [List.getLast?_map, List.getLast?_concat] at hx
        rw [Option.map_some'] at hx
        rw [Option.mem_def] at hx hy
        injection hx with hx
        rw [List.head?_cons] at hy
        injection hy with hy
        rw [← hx, ← hy, h1c, hdc]
        linarith
      · intro _
        show ∃ q, (src.shortestPath ++ [src.data]).getLast? = some q ∧
          ∃ m w', g2.get q = some m ∧ (p, w') ∈ m.adjacentNodes
        refine ⟨src.data, List.getLast?_concat _, src, w, ?_, hadj⟩
        rw [h1c, hg2get, if_neg (fun h => hevc h.symm)]
        exact hgc
    · rw [if_neg hpe] at hp
      obtain ⟨k1, k2, k3, k4, k5, k6, k7, k8⟩ := hInv p n hp
      have hne : ∀ x ∈ n.shortestPath, x ≠ ev := fun x hx => hS' x (k5 x hx)
      refine ⟨k1, k2, k3, k4, k5, k6, ?_, ?_⟩
      · rw [show (n.shortestPath ++ [p]).map (nodeDistance g2) =
            (n.shortestPath ++ [p]).map (nodeDistance g) from
          List.map_congr_left ?_]
        · exact k7
        · intro x hx
          rcases List.mem_append.mp hx with h | h
          · exact hnd2 x (hne x h)
          · rw [List.mem_singleton.mp h]
            exact hnd2 p hpe
      · intro hnn
        obtain ⟨q, hq, m, w', hm, hmm⟩ := k8 hnn
        have hqev : q ≠ ev := hne q (List.mem_of_getLast?_eq_some hq)
        refine ⟨q, hq, m, w', ?_, hmm⟩
        rw [hg2get, if_neg hqev]
        exact hm
  · rw [hg2get, if_neg (fun h => hevc h.symm)]

/-- `calculateMinimumDistance` preserves the search invariant and never
touches the current node's record. -/
theorem calcMin_inv (origin c ev : Point) (w : ℚ) (S : SettledSet) (g : PointGraph)
    (hw : 0 ≤ w)
    (hevS : settledHas S ev = false)
    (hadj : ∀ src, g.get c = some src → (ev, w) ∈ src.adjacentNodes)
    (hcd : nodeDistance g c < MAX_SAFE_INTEGER)
    (hInv : SearchInv origin (S.insert c ()) g) :
    SearchInv origin (S.insert c ()) (calculateMinimumDistance g ev w c) ∧
    (calculateMinimumDistance g ev w c).get c = g.get c := by
  rw [calculateMinimumDistance]
  cases hgc : g.get c with
  | none =>
    cases hge : g.get ev with
    | none => exact ⟨hInv, hgc⟩
    | some evn => exact ⟨hInv, hgc⟩
  | some src =>
    cases hge : g.get ev with
    | none => exact ⟨hInv, hgc⟩
    | some evn =>
      simp only []
      split
      · split
        · rename_i hlt
          obtain ⟨ha, hb⟩ := calcMin_update_inv origin c ev w ((w + 1) ^ 2) S g src evn
            hgc hge hw (sq_nonneg _) hevS (hadj src hgc) hcd hlt hInv
          exact ⟨ha, hb.trans hgc⟩
        · exact ⟨hInv, hgc⟩
      · split
        · rename_i hlt
          obtain ⟨ha, hb⟩ := calcMin_update_inv origin c ev w 0 S g src evn
            hgc hge hw (le_refl 0) hevS (hadj src hgc) hcd hlt hInv
          exact ⟨ha, hb.trans hgc⟩
        · exact ⟨hInv, hgc⟩

/-- The relaxation loop over the current node's adjacency list preserves
the search invariant. -/
theorem relaxAdjacent_inv (origin c : Point) (S : SettledSet) (g0 : PointGraph)
    (hcd0 : nodeDistance g0 c < MAX_SAFE_INTEGER) :
    ∀ (adj : List (Point × ℚ)) (g : PointGraph) (U : List Point),
      g.get c = g0.get c →
      (∀ e ∈ adj, 0 ≤ e.2) →
      (∀ e ∈ adj, ∀ src, g0.get c = some src → (e.1, e.2) ∈ src.adjacentNodes) →
      SearchInv origin (S.insert c ()) g →
      SearchInv origin (S.insert c ()) (relaxAdjacent S c adj g U).1 ∧
      (relaxAdjacent S c adj g U).1.get c = g0.get c := by
  intro adj
  induction adj with
  | nil => intro g U hgc _ _ hInv; exact ⟨hInv, hgc⟩
  | cons e rest ih =>
    intro g U hgc hw hadj hInv
    rw [relaxAdjacent, List.foldl_cons]
    by_cases hs : settledHas S e.1 = true
    · rw [if_pos hs]
      have := ih g U hgc (fun x hx => hw x (List.mem_cons_of_mem e hx))
        (fun x hx => hadj x (List.mem_cons_of_mem e hx)) hInv
      rw [relaxAdjacent] at this
      exact this
    · rw [if_neg hs]
      have hs' : settledHas S e.1 = false := by
        cases hsb : settledHas S e.1
        · rfl
        · exact absurd hsb hs
      have hndc : nodeDistance g c < MAX_SAFE_INTEGER := by
        rw [nodeDistance_congr g g0 c hgc]
        exact hcd0
      obtain ⟨hInv', hc'⟩ := calcMin_inv origin c e.1 e.2 S g
        (hw e (List.mem_cons_self e rest)) hs'
        (fun src hsrc => hadj e (List.mem_cons_self e rest) src
          (by rw [← hgc]; exact hsrc))
        hndc hInv
      have := ih (calculateMinimumDistance g e.1 e.2 c) (setAdd U e.1)
        (hc'.trans hgc) (fun x hx => hw x (List.mem_cons_of_mem e hx))
        (fun x hx => hadj x (List.mem_cons_of_mem e hx)) hInv'
      rw [relaxAdjacent] at this
      exact this

/-- The settling loop preserves the search invariant (the settled set grows
by the current node at each iteration). -/
theorem dijkstraLoop_inv (origin : Point) :
    ∀ (fuel : Nat) (g : PointGraph) (S : SettledSet) (U : List Point) (g' : PointGraph),
      dijkstraLoop fuel g S U = .ok g' →
      SearchInv origin S g →
      ∃ S', SearchInv origin S' g' := by
  intro fuel
  induction fuel with
  | zero =>
    intro g S U g' h hInv
    injection h with h
    exact ⟨S, h ▸ hInv⟩
  | succ fuel ih =>
    intro g S U g' h hInv
    rw [dijkstraLoop] at h
    by_cases hemp : U.isEmpty = true
    · rw [if_pos hemp] at h
      injection h with h
      exact ⟨S, h ▸ hInv⟩
    · rw [if_neg hemp] at h
      cases hlow : getLowestDistanceNode g U with
      | none => rw [hlow] at h; cases h
      | some cur =>
        rw [hlow] at h
        simp only [] at h
        have hcd : nodeDistance g cur < MAX_SAFE_INTEGER := getLowest_lt g U cur hlow
        have hInv' := searchInv_insertSettled origin cur S g hInv
        cases hgcur : g.get cur with
        | none =>
          rw [hgcur] at h
          exact ih _ _ _ _ h hInv'
        | some n =>
          rw [hgcur] at h
          have hrel := relaxAdjacent_inv origin cur S g hcd n.adjacentNodes g
            (U.erase cur) rfl (hInv cur n hgcur).2.1
            (fun e he src hsrc => by
              rw [hgcur] at hsrc
              injection hsrc with hsrc
              rw [← hsrc]
              exact he)
            hInv'
          exact ih _ _ _ _ h hrel.1

/-- A graph whose nodes are key-coherent, have non-negative weights, empty
paths and (except possibly the origin) the initial distance satisfies the
search invariant for any settled set. -/
theorem searchInv_pristine (origin : Point) (g : PointGraph) (S : SettledSet)
    (h : ∀ p n, g.get p = some n → n.data = p ∧ (∀ a ∈ n.adjacentNodes, 0 ≤ a.2) ∧
        n.shortestPath = [] ∧ (p = origin ∨ n.distance = MAX_SAFE_INTEGER)) :
    SearchInv origin S g := by
  intro p n hp
  obtain ⟨h1, h2, h3, h4⟩ := h p n hp
  refine ⟨h1, h2, fun _ => h4, fun hne => absurd h3 hne, ?_, ?_, ?_,
    fun hne => absurd h3 hne⟩
  · intro q hq
    rw [h3] at hq
    cases hq
  · rw [h3]
    simp
  · rw [h3, List.nil_append, List.map_cons, List.map_nil]
    exact List.chain'_singleton _

/-- After a successful run of `calculateShortestPathFromSource` on a
pristine, coherent graph with non-negative weights, the search invariant
holds of the final graph for some settled set. -/
theorem calcSSSP_inv (g : PointGraph) (origin : Point) (g' : PointGraph)
    (hco : Coherent g) (hpr : Pristine g) (hwn : WeightsNonneg g)
    (h : calculateShortestPathFromSource g origin = .ok g') :
    ∃ S, SearchInv origin S g' := by
  have hbase : ∀ p n, g.get p = some n → n.data = p ∧ (∀ a ∈ n.adjacentNodes, 0 ≤ a.2) ∧
      n.shortestPath = [] ∧ (p = origin ∨ n.distance = MAX_SAFE_INTEGER) := by
    intro p n hp
    have hmem := get_mem_toList g p n hp
    exact ⟨hco _ hmem, hwn _ hmem, (hpr _ hmem).2, Or.inr (hpr _ hmem).1⟩
  rw [calculateShortestPathFromSource] at h
  cases hs : g.get origin with
  | none =>
    rw [hs] at h
    exact dijkstraLoop_inv origin _ _ _ _ _ h (searchInv_pristine origin g _ hbase)
  | some n =>
    rw [hs] at h
    have hstart : SearchInv origin Batteries.RBMap.empty
        ⟨g.index.insert origin { n with distance := 0 }⟩ := by
      refine searchInv_pristine origin _ _ ?_
      intro p m hp
      rw [get_mk_insert] at hp
      by_cases hpo : p = origin
      · rw [if_pos hpo] at hp
        injection hp with hp
        obtain ⟨hb1, hb2, hb3, _⟩ := hbase origin n hs
        rw [← hp]
        exact ⟨by rw [hpo]; exact hb1, hb2, hb3, Or.inl hpo⟩
      · rw [if_neg hpo] at hp
        exact hbase p m hp
    exact dijkstraLoop_inv origin _ _ _ _ _ h hstart

theorem simplifyPath_ne_nil (p₀ : Point) (rest : List Point) (r : List Point)
    (h : simplifyPath (p₀ :: rest) = .ok r) : r ≠ [] := by
  rw [simplifyPath] at h
  by_cases hlen : (p₀ :: rest).length ≤ 2
  · rw [if_pos hlen] at h
    injection h with h
    rw [← h]
    exact List.cons_ne_nil _ _
  · rw [if_neg hlen] at h
    cases hs : simplifyStep p₀ rest with
    | error e => rw [hs] at h; cases h
    | ok tail =>
      rw [hs] at h
      injection h with h
      rw [← h]
      exact List.cons_ne_nil _ _

theorem mem_toList_get (g : PointGraph) (p : Point) (n : PointNode)
    (h : (p, n) ∈ g.index.toList) : g.get p = some n :=
  Batteries.RBMap.find?_some.mpr ⟨p, h, Point.cmp_eq_iff.mpr rfl⟩

theorem distance_nonneg (a b : Point) : 0 ≤ distance a b := by
  rw [distance, ratSqrt]
  exact Rat.mkRat_nonneg (Int.natCast_nonneg _) _

/-- `List.foldlM` over `Except`: a property preserved by every successful
step holds of a successful fold's result. -/
theorem foldlM_except_pres {α β : Type} (P : β → Prop) (f : β → α → Except String β) :
    ∀ l : List α, (∀ b a b', a ∈ l → f b a = .ok b' → P b → P b') →
      ∀ b₀ b₁, l.foldlM f b₀ = .ok b₁ → P b₀ → P b₁ := by
  intro l
  induction l with
  | nil =>
    intro _ b₀ b₁ h hP
    injection h with h
    rw [← h]
    exact hP
  | cons a rest ih =>
    intro hstep b₀ b₁ h hP
    rw [List.foldlM_cons] at h
    cases hf : f b₀ a with
    | error e => rw [hf, errBind] at h; cases h
    | ok b' =>
      rw [hf, okBind] at h
      exact ih (fun b x b'' hx => hstep b x b'' (List.mem_cons_of_mem _ hx)) b' b₁ h
        (hstep b₀ a b' (List.mem_cons_self _ _) hf hP)

/-- `connect` re-registers a node with new adjacency but never touches any
record's distance or recorded path. -/
theorem connect_get_dp (g g' : PointGraph) (a b : Point)
    (h : g.connect a b = .ok g') (p : Point) (n' : PointNode)
    (h' : g'.get p = some n') :
    ∃ n, g.get p = some n ∧ n'.distance = n.distance ∧
      n'.shortestPath = n.shortestPath := by
  rw [PointGraph.connect] at h
  cases hga : g.get a with
  | none =>
    cases hgb : g.get b with
    | none => rw [hga, hgb] at h; cases h
    | some nb => rw [hga, hgb] at h; cases h
  | some na =>
    cases hgb : g.get b with
    | none => rw [hga, hgb] at h; cases h
    | some nb =>
      rw [hga, hgb] at h
      injection h with h
      rw [← h] at h'
      rw [get_mk_insert] at h'
      by_cases hpa : p = a
      · rw [if_pos hpa] at h'
        injection h' with h'
        rw [← h', hpa]
        exact ⟨na, hga, rfl, rfl⟩
      · rw [if_neg hpa] at h'
        exact ⟨n', h', rfl, rfl⟩

theorem connectBoth_dp (acc acc' : PointGraph × List Line) (a b : Point)
    (h : connectBoth acc a b = .ok acc') (p : Point) (n' : PointNode)
    (h' : acc'.1.get p = some n') :
    ∃ n, acc.1.get p = some n ∧ n'.distance = n.distance ∧
      n'.shortestPath = n.shortestPath := by
  rw [connectBoth] at h
  cases hc1 : acc.1.connect a b with
  | error e => rw [hc1, errBind] at h; cases h
  | ok g₁ =>
    rw [hc1, okBind] at h
    cases hc2 : g₁.connect b a with
    | error e => rw [hc2, errBind] at h; cases h
    | ok g₂ =>
      rw [hc2, okBind] at h
      injection h with h
      rw [← h] at h'
      obtain ⟨n₁, hn₁, hd₁, hp₁⟩ := connect_get_dp g₁ g₂ b a hc2 p n' h'
      obtain ⟨n, hn, hd, hp⟩ := connect_get_dp acc.1 g₁ a b hc1 p n₁ hn₁
      exact ⟨n, hn, hd₁.trans hd, hp₁.trans hp⟩

/-- `calculateMinimumDistance` touches no record other than the evaluated
node's. -/
theorem calcMin_get_ne (g : PointGraph) (ev : Point) (w : ℚ) (c : Point) (p : Point)
    (hne : p ≠ ev) :
    (calculateMinimumDistance g ev w c).get p = g.get p := by
  rw [calculateMinimumDistance]
  cases hgc : g.get c with
  | none =>
    cases hge : g.get ev with
    | none => rfl
    | some evn => rfl
  | some src =>
    cases hge : g.get ev with
    | none => rfl
    | some evn =>
      simp only []
      split
      · split
        · rw [get_mk_insert, if_neg hne]
        · rfl
      · split
        · rw [get_mk_insert, if_neg hne]
        · rfl

/-- With a non-negative edge weight, `calculateMinimumDistance` never
touches the current (source) node's record: the only candidate write is a
self-relaxation, whose strict-improvement test cannot pass. -/
theorem calcMin_get_c (g : PointGraph) (ev : Point) (w : ℚ) (c : Point) (hw : 0 ≤ w) :
    (calculateMinimumDistance g ev w c).get c = g.get c := by
  by_cases hec : ev = c
  · subst hec
    rw [calculateMinimumDistance]
    cases hgc : g.get ev with
    | none => exact hgc
    | some src =>
      simp only []
      split
      · split
        · rename_i hlt
          exfalso
          nlinarith [sq_nonneg (w + 1)]
        · exact hgc
      · split
        · rename_i hlt
          exfalso
          linarith
        · exact hgc
  · exact calcMin_get_ne g ev w c c (fun h => hec h.symm)

theorem relaxAdjacent_get_c (S : SettledSet) (c : Point) :
    ∀ (adj : List (Point × ℚ)) (g : PointGraph) (U : List Point),
      (∀ e ∈ adj, 0 ≤ e.2) →
      (relaxAdjacent S c adj g U).1.get c = g.get c := by
  intro adj
  induction adj with
  | nil => intro g U _; rfl
  | cons e rest ih =>
    intro g U hw
    rw [relaxAdjacent, List.foldl_cons]
    by_cases hs : settledHas S e.1 = true
    · rw [if_pos hs]
      have := ih g U (fun x hx => hw x (List.mem_cons_of_mem e hx))
      rw [relaxAdjacent] at this
      exact this
    · rw [if_neg hs]
      have := ih (calculateMinimumDistance g e.1 e.2 c) (setAdd U e.1)
        (fun x hx => hw x (List.mem_cons_of_mem e hx))
      rw [relaxAdjacent] at this
      rw [this]
      exact calcMin_get_c g e.1 e.2 c (hw e (List.mem_cons_self e rest))

/-- The relaxation loop never touches the record of an already-settled
node (it skips settled neighbours, and writes only to neighbours). -/
theorem relaxAdjacent_frozen (S : SettledSet) (c p : Point)
    (hp : settledHas S p = true) :
    ∀ (adj : List (Point × ℚ)) (g : PointGraph) (U : List Point),
      (relaxAdjacent S c adj g U).1.get p = g.get p := by
  intro adj
  induction adj with
  | nil => intro g U; rfl
  | cons e rest ih =>
    intro g U
    rw [relaxAdjacent, List.foldl_cons]
    by_cases hs : settledHas S e.1 = true
    · rw [if_pos hs]
      have := ih g U
      rw [relaxAdjacent] at this
      exact this
    · rw [if_neg hs]
      have hne : p ≠ e.1 := fun h => hs (h ▸ hp)
      have := ih (calculateMinimumDistance g e.1 e.2 c) (setAdd U e.1)
      rw [relaxAdjacent] at this
      rw [this]
      exact calcMin_get_ne g e.1 e.2 c p hne

/-- Once a node is settled, the settling loop never changes its record
again. -/
theorem dijkstraLoop_frozen :
    ∀ (fuel : Nat) (g : PointGraph) (S : SettledSet) (U : List Point) (g' : PointGraph),
      dijkstraLoop fuel g S U = .ok g' →
      ∀ p, settledHas S p = true → g'.get p = g.get p := by
  intro fuel
  induction fuel with
  | zero =>
    intro g S U g' h p _
    injection h with h
    rw [h]
  | succ fuel ih =>
    intro g S U g' h p hp
    rw [dijkstraLoop] at h
    by_cases hemp : U.isEmpty = true
    · rw [if_pos hemp] at h
      injection h with h
      rw [h]
    · rw [if_neg hemp] at h
      cases hlow : getLowestDistanceNode g U with
      | none => rw [hlow] at h; cases h
      | some cur =>
        rw [hlow] at h
        have := ih _ _ _ _ h p ((settledHas_insert S cur p).mpr (Or.inl hp))
        rw [this]
        exact relaxAdjacent_frozen S cur p hp _ _ _

theorem addFold_dp (spots : List Point) :
    ∀ (g₀ : PointGraph),
      (∀ p n, g₀.get p = some n → n.distance = MAX_SAFE_INTEGER ∧ n.shortestPath = []) →
      ∀ p n, (spots.foldl PointGraph.add g₀).get p = some n →
        n.distance = MAX_SAFE_INTEGER ∧ n.shortestPath = [] := by
  induction spots with
  | nil => intro g₀ h p n hp; exact h p n hp
  | cons s rest ih =>
    intro g₀ h p n hp
    rw [List.foldl_cons] at hp
    refine ih (g₀.add s) ?_ p n hp
    intro q m hq
    rw [get_add] at hq
    by_cases hhas : g₀.has s = true
    · rw [if_pos hhas] at hq
      exact h q m hq
    · rw [if_neg hhas] at hq
      by_cases hqs : q = s
      · rw [if_pos hqs] at hq
        injection hq with hq
        rw [← hq]
        exact ⟨rfl, rfl⟩
      · rw [if_neg hqs] at hq
        exact h q m hq

/-- Column-edge half of a `createGraph` lattice step preserves the fresh
(distance `MAX`, empty path) state of every record. -/
theorem ypStep_dp (acc₃ acc' : PointGraph × List Line) (b : Point) (y1 : Option ℚ)
    (h : (match y1 with
          | some py =>
              if acc₃.1.has (makePt b.x py) then connectBoth acc₃ (makePt b.x py) b
              else .ok acc₃
          | Option.none => .ok acc₃) = .ok acc')
    (hP : ∀ p n, acc₃.1.get p = some n →
      n.distance = MAX_SAFE_INTEGER ∧ n.shortestPath = []) :
    ∀ p n, acc'.1.get p = some n →
      n.distance = MAX_SAFE_INTEGER ∧ n.shortestPath = [] := by
  cases y1 with
  | none =>
    injection h with h
    rw [← h]
    exact hP
  | some py =>
    simp only [] at h
    by_cases ha : acc₃.1.has (makePt b.x py) = true
    · rw [if_pos ha] at h
      intro p n hn
      obtain ⟨m, hm, hd, hsp⟩ := connectBoth_dp acc₃ acc' _ _ h p n hn
      obtain ⟨hd2, hsp2⟩ := hP p m hm
      exact ⟨hd.trans hd2, hsp.trans hsp2⟩
    · rw [if_neg ha] at h
      injection h with h
      rw [← h]
      exact hP

/-- One full lattice step of `createGraph` (row edge then column edge)
preserves the fresh state of every record. -/
theorem connectStep_dp (acc₂ acc' : PointGraph × List Line) (yp xp : Option ℚ × ℚ)
    (h : (if acc₂.1.has (makePt xp.2 yp.2) then
            match xp.1 with
            | some px =>
                if acc₂.1.has (makePt px yp.2) then
                  connectBoth acc₂ (makePt px yp.2) (makePt xp.2 yp.2) >>= fun acc₃ =>
                    match yp.1 with
                    | some py =>
                        if acc₃.1.has (makePt (makePt xp.2 yp.2).x py) then
                          connectBoth acc₃ (makePt (makePt xp.2 yp.2).x py)
                            (makePt xp.2 yp.2)
                        else .ok acc₃
                    | Option.none => .ok acc₃
                else
                  (Except.ok acc₂ : Except String (PointGraph × List Line)) >>=
                    fun acc₃ =>
                    match yp.1 with
                    | some py =>
                        if acc₃.1.has (makePt (makePt xp.2 yp.2).x py) then
                          connectBoth acc₃ (makePt (makePt xp.2 yp.2).x py)
                            (makePt xp.2 yp.2)
                        else .ok acc₃
                    | Option.none => .ok acc₃
            | Option.none =>
                (Except.ok acc₂ : Except String (PointGraph × List Line)) >>=
                  fun acc₃ =>
                  match yp.1 with
                  | some py =>
                      if acc₃.1.has (makePt (makePt xp.2 yp.2).x py) then
                        connectBoth acc₃ (makePt (makePt xp.2 yp.2).x py)
                          (makePt xp.2 yp.2)
                      else .ok acc₃
                  | Option.none => .ok acc₃
          else .ok acc₂) = .ok acc')
    (hP : ∀ p n, acc₂.1.get p = some n →
      n.distance = MAX_SAFE_INTEGER ∧ n.shortestPath = []) :
    ∀ p n, acc'.1.get p = some n →
      n.distance = MAX_SAFE_INTEGER ∧ n.shortestPath = [] := by
  by_cases hb : acc₂.1.has (makePt xp.2 yp.2) = true
  · rw [if_pos hb] at h
    cases hx : xp.1 with
    | none =>
      rw [hx] at h
      simp only [] at h
      rw [okBind] at h
      exact ypStep_dp acc₂ acc' (makePt xp.2 yp.2) yp.1 h hP
    | some px =>
      rw [hx] at h
      simp only [] at h
      by_cases ha : acc₂.1.has (makePt px yp.2) = true
      · rw [if_pos ha] at h
        cases hcb : connectBoth acc₂ (makePt px yp.2) (makePt xp.2 yp.2) with
        | error e => rw [hcb, errBind] at h; cases h
        | ok acc₃ =>
          rw [hcb, okBind] at h
          refine ypStep_dp acc₃ acc' (makePt xp.2 yp.2) yp.1 h ?_
          intro p n hn
          obtain ⟨m, hm, hd, hsp⟩ := connectBoth_dp acc₂ acc₃ _ _ hcb p n hn
          obtain ⟨hd2, hsp2⟩ := hP p m hm
          exact ⟨hd.trans hd2, hsp.trans hsp2⟩
      · rw [if_neg ha, okBind] at h
        exact ypStep_dp acc₂ acc' (makePt xp.2 yp.2) yp.1 h hP
  · rw [if_neg hb] at h
    injection h with h
    rw [← h]
    exact hP

/-- The graph `createGraph` hands to the search is fresh: every record
still carries the initial distance and an empty recorded path (`add` only
registers fresh nodes, `connect` only rewrites adjacency). -/
theorem createGraph_fresh (spots : List Point) (gc : PointGraph × List Line)
    (h : createGraph spots = .ok gc) :
    ∀ p n, gc.1.get p = some n →
      n.distance = MAX_SAFE_INTEGER ∧ n.shortestPath = [] := by
  rw [createGraph] at h
  have hbase : ∀ p n, (spots.foldl PointGraph.add PointGraph.empty).get p = some n →
      n.distance = MAX_SAFE_INTEGER ∧ n.shortestPath = [] := by
    refine addFold_dp spots PointGraph.empty ?_
    intro p n hp
    cases hp
  refine foldlM_except_pres
    (fun acc : PointGraph × List Line => ∀ p n, acc.1.get p = some n →
      n.distance = MAX_SAFE_INTEGER ∧ n.shortestPath = []) _ _ ?_ _ gc h hbase
  intro b yp b' _ hstep hPb
  refine foldlM_except_pres
    (fun acc : PointGraph × List Line => ∀ p n, acc.1.get p = some n →
      n.distance = MAX_SAFE_INTEGER ∧ n.shortestPath = []) _ _ ?_ _ b' hstep hPb
  intro acc₂ xp acc' _ hstep₂ hP₂
  exact connectStep_dp acc₂ acc' yp xp hstep₂ hP₂

/-- The builder's output satisfies the three search-entry predicates. -/
theorem createGraph_pristine (spots : List Point) (gc : PointGraph × List Line)
    (h : createGraph spots = .ok gc) :
    Coherent gc.1 ∧ Pristine gc.1 ∧ WeightsNonneg gc.1 := by
  obtain ⟨gc', hgc', hedge, _⟩ := createGraph_spec spots
  rw [h] at hgc'
  injection hgc' with hgc'
  subst hgc'
  refine ⟨?_, ?_, ?_⟩
  · intro e he
    exact (hedge e.1 e.2 (mem_toList_get _ _ _ he)).1
  · intro e he
    exact createGraph_fresh spots _ h e.1 e.2 (mem_toList_get _ _ _ he)
  · intro e he a ha
    obtain ⟨_, hwe, _⟩ := (hedge e.1 e.2 (mem_toList_get _ _ _ he)).2 a ha
    rw [hwe]
    exact distance_nonneg _ _

/-- The end state of a search run satisfies the warm invariant: the
distance bound on recorded entries follows from the recorded chain's
monotone distances. -/
theorem searchInv_to_warm (origin : Point) (S : SettledSet) (g : PointGraph)
    (h : SearchInv origin S g) : WarmInv origin g := by
  intro p n hp
  obtain ⟨h1, h2, h3, h4, _h5, h6, h7, h8⟩ := h p n hp
  refine ⟨h1, h2, h3, h4, ?_, h6, h8⟩
  intro q hq
  have h7' := (List.chain'_iff_pairwise).mp h7
  rw [List.map_append, List.pairwise_append] at h7'
  have := h7'.2.2 (nodeDistance g q) (List.mem_map_of_mem _ hq) (nodeDistance g p)
    (by rw [List.map_cons, List.map_nil]; exact List.mem_singleton_self _)
  rw [nodeDistance_of_get g p n hp] at this
  exact this

/-- Warm analogue of the relaxation-step preservation: no settled set,
the self-exclusion of the new path following from the recorded distance
bounds alone, so one more search run on an already-searched graph keeps
the invariant. -/
theorem calcMin_update_warm (origin c ev : Point) (w extra : ℚ)
    (g : PointGraph) (src evn : PointNode)
    (hgc : g.get c = some src) (hge : g.get ev = some evn)
    (hw : 0 ≤ w) (hextra : 0 ≤ extra)
    (hadj : (ev, w) ∈ src.adjacentNodes)
    (hcd : nodeDistance g c < MAX_SAFE_INTEGER)
    (hlt : src.distance + w + extra < evn.distance)
    (hInv : WarmInv origin g) :
    WarmInv origin
      ⟨g.index.insert ev
        { evn with distance := src.distance + w + extra,
                   shortestPath := src.shortestPath ++ [src.data] }⟩ ∧
    PointGraph.get
      (⟨g.index.insert ev
        { evn with distance := src.distance + w + extra,
                   shortestPath := src.shortestPath ++ [src.data] }⟩ : PointGraph) c =
      g.get c := by
  obtain ⟨h1c, h2c, h3c, h4c, h5c, h6c, h7c⟩ := hInv c src hgc
  have h_ev := hInv ev evn hge
  set nr : PointNode :=
    { evn with distance := src.distance + w + extra,
               shortestPath := src.shortestPath ++ [src.data] } with hnr
  set g2 : PointGraph := ⟨g.index.insert ev nr⟩ with hg2
  have hevc : ev ≠ c := by
    intro he
    rw [he, hgc] at hge
    injection hge with hge
    rw [← hge] at hlt
    linarith
  have hdc : nodeDistance g c = src.distance := nodeDistance_of_get g c src hgc
  have hnde : nodeDistance g ev = evn.distance := nodeDistance_of_get g ev evn hge
  have hevsrc : ev ∉ src.shortestPath := by
    intro hmem
    have := h5c ev hmem
    rw [hnde] at this
    linarith
  have hg2get : ∀ x : Point, g2.get x = if x = ev then some nr else g.get x :=
    fun x => get_mk_insert g ev nr x
  have hnd2 : ∀ x : Point, x ≠ ev → nodeDistance g2 x = nodeDistance g x := by
    intro x hx
    rw [nodeDistance, nodeDistance, hg2get, if_neg hx]
  have hnd2ev : nodeDistance g2 ev = src.distance + w + extra := by
    rw [nodeDistance, hg2get, if_pos rfl]
  have hnemem : ∀ x ∈ src.shortestPath ++ [src.data], x ≠ ev := by
    intro x hx
    rcases List.mem_append.mp hx with h | h
    · intro he
      rw [he] at h
      exact hevsrc h
    · rw [List.mem_singleton.mp h, h1c]
      exact fun he => hevc he.symm
  constructor
  · intro p n hp
    rw [hg2get] at hp
    by_cases hpe : p = ev
    · rw [if_pos hpe] at hp
      injection hp with hp
      subst hpe
      rw [← hp]
      refine ⟨h_ev.1, h_ev.2.1, ?_, ?_, ?_, ?_, ?_⟩
      · intro habs
        exact absurd habs (by simp)
      · intro _
        show (src.shortestPath ++ [src.data]).head? = some origin
        cases hsp : src.shortestPath with
        | nil =>
          have hcor : c = origin := by
            rcases h3c hsp with h | h
            · exact h
            · rw [h] at hdc
              rw [hdc] at hcd
              exact absurd hcd (lt_irrefl _)
          rw [List.nil_append, List.head?_cons, h1c, hcor]
        | cons a l =>
          have hha := h4c (by rw [hsp]; exact List.cons_ne_nil a l)
          rw [hsp, List.head?_cons] at hha
          rw [List.cons_append, List.head?_cons]
          exact hha
      · show ∀ q ∈ src.shortestPath ++ [src.data],
          nodeDistance g2 q ≤ nr.distance
        intro q hq
        rw [hnd2 q (hnemem q hq)]
        rcases List.mem_append.mp hq with h | h
        · have := h5c q h
          show nodeDistance g q ≤ src.distance + w + extra
          linarith
        · rw [List.mem_singleton.mp h, h1c, hdc]
          show src.distance ≤ src.distance + w + extra
          linarith
      · show p ∉ src.shortestPath ++ [src.data]
        exact fun hmem => hnemem p hmem rfl
      · intro _
        show ∃ q, (src.shortestPath ++ [src.data]).getLast? = some q ∧
          ∃ m w', g2.get q = some m ∧ (p, w') ∈ m.adjacentNodes
        refine ⟨src.data, List.getLast?_concat _, src, w, ?_, hadj⟩
        rw [h1c, hg2get, if_neg (fun h => hevc h.symm)]
        exact hgc
    · rw [if_neg hpe] at hp
      obtain ⟨k1, k2, k3, k4, k5, k6, k7⟩ := hInv p n hp
      refine ⟨k1, k2, k3, k4, ?_, k6, ?_⟩
      · intro q hq
        by_cases hqe : q = ev
        · rw [hqe, hnd2ev]
          have hold := k5 q hq
          rw [hqe, hnde] at hold
          linarith
        · rw [hnd2 q hqe]
          exact k5 q hq
      · intro hnn
        obtain ⟨q, hq, m, w', hm, hmm⟩ := k7 hnn
        by_cases hqe : q = ev
        · rw [hqe] at hm
          rw [hge] at hm
          injection hm with hm
          refine ⟨q, hq, nr, w', ?_, ?_⟩
          · rw [hg2get, if_pos hqe]
          · show (p, w') ∈ evn.adjacentNodes
            rw [hm]
            exact hmm
        · refine ⟨q, hq, m, w', ?_, hmm⟩
          rw [hg2get, if_neg hqe]
          exact hm
  · rw [hg2get, if_neg (fun h => hevc h.symm)]

/-- `calculateMinimumDistance` preserves the warm invariant. -/
theorem calcMin_warm (origin c ev : Point) (w : ℚ) (g : PointGraph)
    (hw : 0 ≤ w)
    (hadj : ∀ src, g.get c = some src → (ev, w) ∈ src.adjacentNodes)
    (hcd : nodeDistance g c < MAX_SAFE_INTEGER)
    (hInv : WarmInv origin g) :
    WarmInv origin (calculateMinimumDistance g ev w c) ∧
    (calculateMinimumDistance g ev w c).get c = g.get c := by
  rw [calculateMinimumDistance]
  cases hgc : g.get c with
  | none =>
    cases hge : g.get ev with
    | none => exact ⟨hInv, hgc⟩
    | some evn => exact ⟨hInv, hgc⟩
  | some src =>
    cases hge : g.get ev with
    | none => exact ⟨hInv, hgc⟩
    | some evn =>
      simp only []
      split
      · split
        · rename_i hlt
          obtain ⟨ha, hb⟩ := calcMin_update_warm origin c ev w ((w + 1) ^ 2) g src evn
            hgc hge hw (sq_nonneg _) (hadj src hgc) hcd hlt hInv
          exact ⟨ha, hb.trans hgc⟩
        · exact ⟨hInv, hgc⟩
      · split
        · rename_i hlt
          obtain ⟨ha, hb⟩ := calcMin_update_warm origin c ev w 0 g src evn
            hgc hge hw (le_refl 0) (hadj src hgc) hcd hlt hInv
          exact ⟨ha, hb.trans hgc⟩
        · exact ⟨hInv, hgc⟩

/-- The relaxation loop preserves the warm invariant. -/
theorem relaxAdjacent_warm (origin c : Point) (S : SettledSet) (g0 : PointGraph)
    (hcd0 : nodeDistance g0 c < MAX_SAFE_INTEGER) :
    ∀ (adj : List (Point × ℚ)) (g : PointGraph) (U : List Point),
      g.get c = g0.get c →
      (∀ e ∈ adj, 0 ≤ e.2) →
      (∀ e ∈ adj, ∀ src, g0.get c = some src → (e.1, e.2) ∈ src.adjacentNodes) →
      WarmInv origin g →
      WarmInv origin (relaxAdjacent S c adj g U).1 ∧
      (relaxAdjacent S c adj g U).1.get c = g0.get c := by
  intro adj
  induction adj with
  | nil => intro g U hgc _ _ hInv; exact ⟨hInv, hgc⟩
  | cons e rest ih =>
    intro g U hgc hw hadj hInv
    rw [relaxAdjacent, List.foldl_cons]
    by_cases hs : settledHas S e.1 = true
    · rw [if_pos hs]
      have := ih g U hgc (fun x hx => hw x (List.mem_cons_of_mem e hx))
        (fun x hx => hadj x (List.mem_cons_of_mem e hx)) hInv
      rw [relaxAdjacent] at this
      exact this
    · rw [if_neg hs]
      have hndc : nodeDistance g c < MAX_SAFE_INTEGER := by
        rw [nodeDistance_congr g g0 c hgc]
        exact hcd0
      obtain ⟨hInv', hc'⟩ := calcMin_warm origin c e.1 e.2 g
        (hw e (List.mem_cons_self e rest))
        (fun src hsrc => hadj e (List.mem_cons_self e rest) src
          (by rw [← hgc]; exact hsrc))
        hndc hInv
      have := ih (calculateMinimumDistance g e.1 e.2 c) (setAdd U e.1)
        (hc'.trans hgc) (fun x hx => hw x (List.mem_cons_of_mem e hx))
        (fun x hx => hadj x (List.mem_cons_of_mem e hx)) hInv'
      rw [relaxAdjacent] at this
      exact this

/-- The settling loop preserves the warm invariant. -/
theorem dijkstraLoop_warm (origin : Point) :
    ∀ (fuel : Nat) (g : PointGraph) (S : SettledSet) (U : List Point) (g' : PointGraph),
      dijkstraLoop fuel g S U = .ok g' →
      WarmInv origin g →
      WarmInv origin g' := by
  intro fuel
  induction fuel with
  | zero =>
    intro g S U g' h hInv
    injection h with h
    exact h ▸ hInv
  | succ fuel ih =>
    intro g S U g' h hInv
    rw [dijkstraLoop] at h
    by_cases hemp : U.isEmpty = true
    · rw [if_pos hemp] at h
      injection h with h
      exact h ▸ hInv
    · rw [if_neg hemp] at h
      cases hlow : getLowestDistanceNode g U with
      | none => rw [hlow] at h; cases h
      | some cur =>
        rw [hlow] at h
        simp only [] at h
        have hcd : nodeDistance g cur < MAX_SAFE_INTEGER := getLowest_lt g U cur hlow
        cases hgcur : g.get cur with
        | none =>
          rw [hgcur] at h
          exact ih _ _ _ _ h hInv
        | some n =>
          rw [hgcur] at h
          have hrel := relaxAdjacent_warm origin cur S g hcd n.adjacentNodes g
            (U.erase cur) rfl (hInv cur n hgcur).2.1
            (fun e he src hsrc => by
              rw [hgcur] at hsrc
              injection hsrc with hsrc
              rw [← hsrc]
              exact he)
            hInv
          exact ih _ _ _ _ h hrel.1

/-- The search settles the origin in its very first iteration and never
touches a settled record again, so the final graph still shows the origin
with distance zero and whatever path it entered the run with. -/
theorem calcSSSP_origin_record (g : PointGraph) (origin : Point) (g' : PointGraph)
    (hwn : WeightsNonneg g)
    (h : calculateShortestPathFromSource g origin = .ok g')
    (n : PointNode) (hs : g.get origin = some n) :
    g'.get origin = some { n with distance := 0 } := by
  rw [calculateShortestPathFromSource, hs] at h
  simp only [] at h
  have hnd0 : nodeDistance (⟨g.index.insert origin { n with distance := 0 }⟩ :
      PointGraph) origin = 0 := by
    rw [nodeDistance, get_mk_insert, if_pos rfl]
  have hmax : (0 : ℚ) < MAX_SAFE_INTEGER := by norm_num [MAX_SAFE_INTEGER]
  have hfuel : (g.index.insert origin { n with distance := 0 }).size + 1 =
      Nat.succ ((g.index.insert origin { n with distance := 0 }).size) := rfl
  rw [hfuel, dijkstraLoop] at h
  rw [show ([origin] : List Point).isEmpty = false from rfl] at h
  rw [if_neg (by simp : ¬(false = true))] at h
  have hlow : getLowestDistanceNode
      (⟨g.index.insert origin { n with distance := 0 }⟩ : PointGraph) [origin] =
      some origin := by
    rw [getLowestDistanceNode, List.foldl_cons, List.foldl_nil]
    simp only []
    rw [hnd0, if_pos hmax]
  rw [hlow] at h
  simp only [] at h
  rw [List.erase_cons_head] at h
  rw [show PointGraph.get
      (⟨g.index.insert origin { n with distance := 0 }⟩ : PointGraph) origin =
      some { n with distance := 0 } from by rw [get_mk_insert, if_pos rfl]] at h
  simp only [] at h
  have hfr := dijkstraLoop_frozen _ _ _ _ _ h origin
    ((settledHas_insert _ origin origin).mpr (Or.inr rfl))
  rw [hfr]
  have hwadj : ∀ e ∈ ({ n with distance := 0 } : PointNode).adjacentNodes,
      (0 : ℚ) ≤ e.2 := by
    intro e he
    exact hwn (origin, n) (get_mem_toList g origin n hs) e he
  rw [relaxAdjacent_get_c _ _ _ _ _ hwadj]
  rw [get_mk_insert, if_pos rfl]

/-- `calculateShortestPathFromSource` preserves the warm invariant when
the origin's record already carries distance zero (as it does after any
previous run): re-zeroing the origin then leaves every recorded distance
unchanged, and the loop preserves the invariant. -/
theorem calcSSSP_warm (g : PointGraph) (origin : Point) (g' : PointGraph)
    (hInv : WarmInv origin g)
    (horig : ∀ n, g.get origin = some n → n.distance = 0)
    (h : calculateShortestPathFromSource g origin = .ok g') :
    WarmInv origin g' := by
  rw [calculateShortestPathFromSource] at h
  cases hs : g.get origin with
  | none =>
    rw [hs] at h
    exact dijkstraLoop_warm origin _ _ _ _ _ h hInv
  | some n =>
    rw [hs] at h
    have hd0 : n.distance = 0 := horig n hs
    have hget : ∀ x : Point,
        PointGraph.get ⟨g.index.insert origin { n with distance := 0 }⟩ x =
          if x = origin then some { n with distance := 0 } else g.get x :=
      fun x => get_mk_insert g origin { n with distance := 0 } x
    have hnd : ∀ x : Point,
        nodeDistance ⟨g.index.insert origin { n with distance := 0 }⟩ x =
          nodeDistance g x := by
      intro x
      by_cases hx : x = origin
      · subst hx
        rw [nodeDistance, hget, if_pos rfl, nodeDistance, hs]
        exact hd0.symm
      · rw [nodeDistance, hget, if_neg hx, nodeDistance]
    have hstart : WarmInv origin ⟨g.index.insert origin { n with distance := 0 }⟩ := by
      intro p m hp
      rw [hget] at hp
      by_cases hpo : p = origin
      · rw [if_pos hpo] at hp
        injection hp with hp
        subst hpo
        rw [← hp]
        obtain ⟨h1, h2, h3, h4, h5, h6, h7⟩ := hInv p n hs
        refine ⟨h1, h2, fun _ => Or.inl rfl, h4, ?_, h6, ?_⟩
        · intro q hq
          rw [hnd q]
          have := h5 q hq
          rw [hd0] at this
          exact this
        · intro hnn
          obtain ⟨q, hq, m', w', hm', hmm'⟩ := h7 hnn
          by_cases hqo : q = p
          · refine ⟨q, hq, { n with distance := 0 }, w', ?_, ?_⟩
            · rw [hget, if_pos hqo]
            · show (p, w') ∈ n.adjacentNodes
              rw [hqo, hs] at hm'
              injection hm' with hm'
              rw [hm']
              exact hmm'
          · exact ⟨q, hq, m', w', by rw [hget, if_neg hqo]; exact hm', hmm'⟩
      · rw [if_neg hpo] at hp
        obtain ⟨k1, k2, k3, k4, k5, k6, k7⟩ := hInv p m hp
        refine ⟨k1, k2, k3, k4, ?_, k6, ?_⟩
        · intro q hq
          rw [hnd q]
          exact k5 q hq
        · intro hnn
          obtain ⟨q, hq, m', w', hm', hmm'⟩ := k7 hnn
          by_cases hqo : q = origin
          · refine ⟨q, hq, { n with distance := 0 }, w', ?_, ?_⟩
            · rw [hget, if_pos hqo]
            · show (p, w') ∈ n.adjacentNodes
              rw [hqo, hs] at hm'
              injection hm' with hm'
              rw [hm']
              exact hmm'
          · exact ⟨q, hq, m', w', by rw [hget, if_neg hqo]; exact hm', hmm'⟩
    exact dijkstraLoop_warm origin _ _ _ _ _ h hstart

/-- Claim C9: after the single-source search completes (on the pristine,
key-coherent graph the builder supplies), along any recorded predecessor
chain from the origin — a node's `shortestPath` list followed by the node
itself — the recorded best distances are non-decreasing, assuming all edge
weights are non-negative. -/
theorem c9_chain_distances_nondecreasing (g : PointGraph) (origin : Point)
    (g' : PointGraph) (hco : Coherent g) (hpr : Pristine g) (hwn : WeightsNonneg g)
    (hrun : calculateShortestPathFromSource g origin = .ok g') :
    ∀ p n, g'.get p = some n →
      List.Chain' (fun a b => a ≤ b) ((n.shortestPath ++ [p]).map (nodeDistance g')) := by
  obtain ⟨S, hInv⟩ := calcSSSP_inv g origin g' hco hpr hwn hrun
  intro p n hp
  exact (hInv p n hp).2.2.2.2.2.2.1

/-- Witness for claim C9 on the two-node graph `c9Graph` searched from
(0,0): the final records carry non-decreasing distances along every
recorded chain. -/
theorem c9_witness :
    Coherent c9Graph ∧ Pristine c9Graph ∧ WeightsNonneg c9Graph ∧
    ∃ g', calculateShortestPathFromSource c9Graph ⟨0, 0⟩ = .ok g' ∧
      ∀ p n, g'.get p = some n →
        List.Chain' (fun a b => a ≤ b) ((n.shortestPath ++ [p]).map (nodeDistance g')) := by
  refine ⟨by decide, by decide, by decide, _, rfl, ?_⟩
  exact fun p n hp => c9_chain_distances_nondecreasing c9Graph ⟨0, 0⟩ _
    (by decide) (by decide) (by decide) rfl p n hp

/-- Successful-run anatomy of `shortestPathRun`: both endpoint nodes are
registered, the search succeeded and produced the returned graph, and the
returned list is the destination's recorded path (empty when the
destination is unregistered afterwards, which key-preservation rules out
in practice). -/
theorem shortestPathRun_cases (g : PointGraph) (o d : Point) (gr : PointGraph)
    (r : List Point) (h : shortestPathRun g o d = .ok (gr, r)) :
    ∃ nO nD, g.get o = some nO ∧ g.get d = some nD ∧
      calculateShortestPathFromSource g o = .ok gr ∧
      ((∃ nd, gr.get d = some nd ∧ r = nd.shortestPath) ∨
        (gr.get d = Option.none ∧ r = [])) := by
  cases hO : g.get o with
  | none =>
    have hval : shortestPathRun g o d = .error originNotFoundMsg := by
      rw [shortestPathRun.eq_def, hO]
    rw [hval] at h
    cases h
  | some nO =>
    cases hD : g.get d with
    | none =>
      have hval : shortestPathRun g o d = .error originNotFoundMsg := by
        rw [shortestPathRun.eq_def, hO, hD]
      rw [hval] at h
      cases h
    | some nD =>
      cases hS : calculateShortestPathFromSource g o with
      | error e =>
        have hval : shortestPathRun g o d = .error e := by
          rw [shortestPathRun.eq_def, hO, hD]
          show Except.bind (calculateShortestPathFromSource g o) _ = _
          rw [hS]
          rfl
        rw [hval] at h
        cases h
      | ok g1 =>
        have hval : shortestPathRun g o d =
            .ok (g1, match g1.get d with
              | some n => n.shortestPath
              | Option.none => []) := by
          rw [shortestPathRun.eq_def, hO, hD]
          show Except.bind (calculateShortestPathFromSource g o) _ = _
          rw [hS]
          rfl
        rw [hval] at h
        injection h with h
        rw [Prod.mk.injEq] at h
        obtain ⟨hg1, hr⟩ := h
        subst hg1
        refine ⟨nO, nD, rfl, rfl, rfl, ?_⟩
        cases hgd : g1.get d with
        | none =>
          rw [hgd] at hr
          exact Or.inr ⟨rfl, hr.symm⟩
        | some nd =>
          rw [hgd] at hr
          exact Or.inl ⟨nd, rfl, hr.symm⟩

/-- The endpoint properties of a recorded path, extracted from the warm
invariant at the destination's record. -/
theorem warm_endpoints (origin destination : Point) (gr : PointGraph)
    (r : List Point) (hw : WarmInv origin gr) (nd : PointNode)
    (hgd : gr.get destination = some nd) (hr : r = nd.shortestPath)
    (hne : r ≠ []) :
    r.head? = some origin ∧ destination ∉ r ∧
    ∃ q, r.getLast? = some q ∧ q ≠ destination ∧
      ∃ m w', gr.get q = some m ∧ (destination, w') ∈ m.adjacentNodes := by
  obtain ⟨_, _, _, k4, _, k6, k7⟩ := hw destination nd hgd
  subst hr
  refine ⟨k4 hne, k6, ?_⟩
  obtain ⟨q, hq, m, w', hm, hmm⟩ := k7 hne
  refine ⟨q, hq, ?_, m, w', hm, hmm⟩
  intro hqd
  exact k6 (hqd ▸ List.mem_of_getLast?_eq_some hq)

/-- Claim C6: whenever the search reaches the destination (the returned
list is nonempty), the list `shortestPath` returns is the destination
node's recorded predecessor chain: it begins with the origin point, never
contains the destination coordinate, and ends at the destination's
immediate predecessor — a node distinct from the destination with an edge
into the destination.  This holds for the first call on the fresh graph
the builder supplies (first conjunct) AND for `route`'s second call on the
graph already mutated by the first search (second conjunct, via the warm
invariant, which survives a completed run and a re-run).  The last two
conjuncts tie this to `route`: its generated graph satisfies the entry
predicates, and the polyline it simplifies is exactly the origin antenna,
the second call's list (`searchResultPoints`), and the destination
antenna — so that segment contains the origin antenna but never the
destination antenna. -/
theorem c6_shortestPath_endpoints (g : PointGraph) (origin destination : Point)
    (hco : Coherent g) (hpr : Pristine g) (hwn : WeightsNonneg g) :
    (∀ g₁ r₁, shortestPathRun g origin destination = .ok (g₁, r₁) → r₁ ≠ [] →
      shortestPath g origin destination = .ok r₁ ∧
      r₁.head? = some origin ∧ destination ∉ r₁ ∧
      ∃ q, r₁.getLast? = some q ∧ q ≠ destination ∧
        ∃ m w', g₁.get q = some m ∧ (destination, w') ∈ m.adjacentNodes) ∧
    (∀ g₁ r₁ g₂ r₂, shortestPathRun g origin destination = .ok (g₁, r₁) →
      shortestPathRun g₁ origin destination = .ok (g₂, r₂) → r₂ ≠ [] →
      shortestPath g₁ origin destination = .ok r₂ ∧
      r₂.head? = some origin ∧ destination ∉ r₂ ∧
      ∃ q, r₂.getLast? = some q ∧ q ≠ destination ∧
        ∃ m w', g₂.get q = some m ∧ (destination, w') ∈ m.adjacentNodes) ∧
    (∀ opts gc, routeGraphE opts = .ok gc →
      Coherent gc.1 ∧ Pristine gc.1 ∧ WeightsNonneg gc.1) ∧
    (∀ opts gc r₁ g₂ r₂, routeGraphE opts = .ok gc →
      shortestPathRun gc.1 (routeOrigin opts) (routeDestination opts) = .ok r₁ →
      r₁.2 ≠ [] →
      shortestPathRun r₁.1 (routeOrigin opts) (routeDestination opts) = .ok (g₂, r₂) →
      route opts =
        simplifyPath (computePt opts.pointA :: (r₂ ++ [computePt opts.pointB]))) := by
  refine ⟨?_, ?_, ?_, ?_⟩
  · intro g₁ r₁ hrun hne
    obtain ⟨nO, nD, hO, hD, hS, hres⟩ :=
      shortestPathRun_cases g origin destination g₁ r₁ hrun
    obtain ⟨S, hInv⟩ := calcSSSP_inv g origin g₁ hco hpr hwn hS
    have hwarm := searchInv_to_warm origin S g₁ hInv
    have hsp : shortestPath g origin destination = .ok r₁ := by
      rw [shortestPath, hrun]
      rfl
    rcases hres with ⟨nd, hgd, hr⟩ | ⟨_, hr⟩
    · exact ⟨hsp, warm_endpoints origin destination g₁ r₁ hwarm nd hgd hr hne⟩
    · exact absurd hr hne
  · intro g₁ r₁ g₂ r₂ hrun1 hrun2 hne
    obtain ⟨nO, nD, hO, hD, hS1, _⟩ :=
      shortestPathRun_cases g origin destination g₁ r₁ hrun1
    obtain ⟨S, hInv⟩ := calcSSSP_inv g origin g₁ hco hpr hwn hS1
    have hwarm1 := searchInv_to_warm origin S g₁ hInv
    have horigin := calcSSSP_origin_record g origin g₁ hwn hS1 nO hO
    have horig : ∀ n, g₁.get origin = some n → n.distance = 0 := by
      intro n hn
      rw [horigin] at hn
      injection hn with hn
      rw [← hn]
    obtain ⟨nO₂, nD₂, hO₂, hD₂, hS2, hres₂⟩ :=
      shortestPathRun_cases g₁ origin destination g₂ r₂ hrun2
    have hwarm2 := calcSSSP_warm g₁ origin g₂ hwarm1 horig hS2
    have hsp : shortestPath g₁ origin destination = .ok r₂ := by
      rw [shortestPath, hrun2]
      rfl
    rcases hres₂ with ⟨nd, hgd, hr⟩ | ⟨_, hr⟩
    · exact ⟨hsp, warm_endpoints origin destination g₂ r₂ hwarm2 nd hgd hr hne⟩
    · exact absurd hr hne
  · intro opts gc hgc
    exact createGraph_pristine (routeSpots opts) gc hgc
  · intro opts gc r₁ g₂ r₂ hgc hrun1 hne hrun2
    have hlen : 0 < r₁.2.length := List.length_pos.mpr hne
    have hR : route opts =
        shortestPathRun r₁.1 (routeOrigin opts) (routeDestination opts) >>=
          (fun rr => simplifyPath
            (computePt opts.pointA :: (rr.2 ++ [computePt opts.pointB]))) := by
      rw [route, hgc, okBind, hrun1, okBind]
      exact if_pos hlen
    rw [hR, hrun2, okBind]

/-- Witness for claim C6 on the two-node graph `c6Graph`, origin (0,0) and
destination (2,0): the returned list is `[(0,0)]` — it starts at the
origin, excludes the destination, and ends at the destination's immediate
predecessor. -/
theorem c6_witness :
    Coherent c6Graph ∧ Pristine c6Graph ∧ WeightsNonneg c6Graph ∧
    ∃ g' r, shortestPathRun c6Graph ⟨0, 0⟩ ⟨2, 0⟩ = .ok (g', r) ∧ r ≠ [] ∧
      (shortestPath c6Graph ⟨0, 0⟩ ⟨2, 0⟩ = .ok r ∧
        r.head? = some ⟨0, 0⟩ ∧
        (⟨2, 0⟩ : Point) ∉ r ∧
        ∃ q, r.getLast? = some q ∧ q ≠ ⟨2, 0⟩ ∧
          ∃ m w', g'.get q = some m ∧ ((⟨2, 0⟩ : Point), w') ∈ m.adjacentNodes) := by
  refine ⟨by decide, by decide, by decide, _, _, rfl, by decide, ?_⟩
  exact (c6_shortestPath_endpoints c6Graph ⟨0, 0⟩ ⟨2, 0⟩ (by decide) (by decide)
    (by decide)).1 _ _ rfl (by decide)

set_option maxHeartbeats 2000000 in

/-- Claim C3: the routing call raises the endpoint-not-found error exactly
when the origin or the destination antenna coordinate has no node in the
generated graph (first equivalence; the search's own internal failure mode
is a different error value, and the simplification stage never fails), and
it returns the empty path exactly when both antenna nodes exist and the
first search run completes with the destination's recorded path empty —
an unreached destination is reported through the empty path, never through
the error channel (second equivalence). -/
theorem c3_endpoint_error_and_empty_path (opts : OrthogonalConnectorOpts) :
    (route opts = .error originNotFoundMsg ↔
      ∃ gc, routeGraphE opts = .ok gc ∧
        (gc.1.get (routeOrigin opts) = Option.none ∨
          gc.1.get (routeDestination opts) = Option.none)) ∧
    (route opts = .ok [] ↔
      ∃ gc r₁, routeGraphE opts = .ok gc ∧
        shortestPathRun gc.1 (routeOrigin opts) (routeDestination opts) = .ok r₁ ∧
        ¬(gc.1.get (routeOrigin opts) = Option.none) ∧
        ¬(gc.1.get (routeDestination opts) = Option.none) ∧
        r₁.2 = []) := by
  obtain ⟨gc, hgc, _hedge, _hnodes⟩ := createGraph_spec (routeSpots opts)
  have hgcE : routeGraphE opts = .ok gc := hgc
  have hgcU : ∀ gc', routeGraphE opts = .ok gc' → gc' = gc := by
    intro gc' h
    rw [hgcE] at h
    injection h with h
    exact h.symm
  cases hO : gc.1.get (routeOrigin opts) with
  | none =>
    have hrun : shortestPathRun gc.1 (routeOrigin opts) (routeDestination opts) =
        .error originNotFoundMsg := by
      rw [shortestPathRun.eq_def, hO]
    have hR : route opts = .error originNotFoundMsg := by
      rw [route, hgcE, okBind, hrun]
      rfl
    constructor
    · constructor
      · intro _; exact ⟨gc, hgcE, Or.inl hO⟩
      · intro _; exact hR
    · constructor
      · intro h; rw [hR] at h; cases h
      · rintro ⟨gc', r₁', hgc', _hrun', hOne, _, _⟩
        rw [hgcU gc' hgc'] at hOne
        exact absurd hO hOne
  | some nO =>
    cases hD : gc.1.get (routeDestination opts) with
    | none =>
      have hrun : shortestPathRun gc.1 (routeOrigin opts) (routeDestination opts) =
          .error originNotFoundMsg := by
        rw [shortestPathRun.eq_def, hO, hD]
      have hR : route opts = .error originNotFoundMsg := by
        rw [route, hgcE, okBind, hrun]
        rfl
      constructor
      · constructor
        · intro _; exact ⟨gc, hgcE, Or.inr hD⟩
        · intro _; exact hR
      · constructor
        · intro h; rw [hR] at h; cases h
        · rintro ⟨gc', r₁', hgc', _hrun', _, hDne, _⟩
          rw [hgcU gc' hgc'] at hDne
          exact absurd hD hDne
    | some nD =>
      have hbothfalse : ¬∃ gc', routeGraphE opts = .ok gc' ∧
          (gc'.1.get (routeOrigin opts) = Option.none ∨
            gc'.1.get (routeDestination opts) = Option.none) := by
        rintro ⟨gc', hgc', hor⟩
        rw [hgcU gc' hgc'] at hor
        rcases hor with h | h
        · rw [hO] at h; cases h
        · rw [hD] at h; cases h
      cases hS : calculateShortestPathFromSource gc.1 (routeOrigin opts) with
      | error e =>
        have henull : e = nullErrorMsg := calcSSSP_error _ _ _ hS
        have hrun : shortestPathRun gc.1 (routeOrigin opts) (routeDestination opts) =
            .error e := by
          rw [shortestPathRun.eq_def, hO, hD]
          show Except.bind (calculateShortestPathFromSource gc.1 (routeOrigin opts)) _ = _
          rw [hS]
          rfl
        have hR : route opts = .error e := by
          rw [route, hgcE, okBind, hrun]
          rfl
        constructor
        · constructor
          · intro h
            rw [hR] at h
            injection h with h
            rw [henull] at h
            exact absurd h.symm (by decide)
          · intro h; exact absurd h hbothfalse
        · constructor
          · intro h; rw [hR] at h; cases h
          · rintro ⟨gc', r₁', hgc', hrun', _, _, _⟩
            rw [hgcU gc' hgc'] at hrun'
            rw [hrun] at hrun'
            cases hrun'
      | ok g1 =>
        set path1 :=
          (match g1.get (routeDestination opts) with
            | some n => n.shortestPath
            | Option.none => []) with hpath1
        have hrun : shortestPathRun gc.1 (routeOrigin opts) (routeDestination opts) =
            .ok (g1, path1) := by
          rw [shortestPathRun.eq_def, hO, hD]
          show Except.bind (calculateShortestPathFromSource gc.1 (routeOrigin opts)) _ = _
          rw [hS]
          rfl
        by_cases hp : path1 = []
        · have hR : route opts = .ok [] := by
            rw [route, hgcE, okBind, hrun, okBind]
            show (if 0 < path1.length then _ else Except.ok []) = _
            rw [hp]
            rfl
          constructor
          · constructor
            · intro h; rw [hR] at h; cases h
            · intro h; exact absurd h hbothfalse
          · constructor
            · intro _
              refine ⟨gc, (g1, path1), hgcE, hrun, ?_, ?_, hp⟩
              · rw [hO]; intro h; cases h
              · rw [hD]; intro h; cases h
            · intro _; exact hR
        · have hlen : 0 < path1.length := List.length_pos.mpr hp
          have hg1O : (g1.get (routeOrigin opts)).isSome = true := by
            rw [calcSSSP_keys gc.1 (routeOrigin opts) g1 hS, hO]
            rfl
          have hg1D : (g1.get (routeDestination opts)).isSome = true := by
            rw [calcSSSP_keys gc.1 (routeOrigin opts) g1 hS, hD]
            rfl
          obtain ⟨n1, hn1⟩ := Option.isSome_iff_exists.mp hg1O
          obtain ⟨n2, hn2⟩ := Option.isSome_iff_exists.mp hg1D
          have hRoute : route opts =
              shortestPathRun g1 (routeOrigin opts) (routeDestination opts) >>=
                (fun r₂ => simplifyPath
                  (computePt opts.pointA :: (r₂.2 ++ [computePt opts.pointB]))) := by
            rw [route, hgcE, okBind, hrun, okBind]
            exact if_pos hlen
          have hnotok : ∀ v, route opts = .ok v → v ≠ [] := by
            intro v hv
            rw [hRoute] at hv
            cases hrun2 : shortestPathRun g1 (routeOrigin opts) (routeDestination opts) with
            | error e2 => rw [hrun2, errBind] at hv; cases hv
            | ok r₂ =>
              rw [hrun2, okBind] at hv
              exact simplifyPath_ne_nil _ _ v hv
          have herr : ∀ e, route opts = .error e → e = nullErrorMsg := by
            intro e hv
            rw [hRoute] at hv
            cases hrun2 : shortestPathRun g1 (routeOrigin opts) (routeDestination opts) with
            | error e2 =>
              rw [hrun2, errBind] at hv
              injection hv with hv
              rw [← hv]
              cases hS2 : calculateShortestPathFromSource g1 (routeOrigin opts) with
              | error e3 =>
                have hval : shortestPathRun g1 (routeOrigin opts) (routeDestination opts) =
                    .error e3 := by
                  rw [shortestPathRun.eq_def, hn1, hn2]
                  show Except.bind (calculateShortestPathFromSource g1 (routeOrigin opts))
                    _ = _
                  rw [hS2]
                  rfl
                rw [hval] at hrun2
                injection hrun2 with h2
                rw [← h2]
                exact calcSSSP_error _ _ _ hS2
              | ok g2 =>
                have hval : shortestPathRun g1 (routeOrigin opts) (routeDestination opts) =
                    .ok (g2,
                      match g2.get (routeDestination opts) with
                      | some n => n.shortestPath
                      | Option.none => []) := by
                  rw [shortestPathRun.eq_def, hn1, hn2]
                  show Except.bind (calculateShortestPathFromSource g1 (routeOrigin opts))
                    _ = _
                  rw [hS2]
                  rfl
                rw [hval] at hrun2
                cases hrun2
            | ok r₂ =>
              rw [hrun2, okBind] at hv
              obtain ⟨r, hr⟩ := simplifyPath_ok
                (computePt opts.pointA :: (r₂.2 ++ [computePt opts.pointB]))
              rw [hr] at hv
              cases hv
          constructor
          · constructor
            · intro h
              exact absurd (herr _ h) (by decide)
            · intro h; exact absurd h hbothfalse
          · constructor
            · intro h
              exact absurd rfl (hnotok [] h)
            · rintro ⟨gc', r₁', hgc', hrun', _, _, hr₁'⟩
              rw [hgcU gc' hgc'] at hrun'
              rw [hrun] at hrun'
              injection hrun' with hrun'
              rw [← hrun'] at hr₁'
              exact absurd hr₁' hp

/-- Witness for claim C10 at the diagonal triple
`(0,0), (1,2), (5,3)` (classified `unknown` and retained). -/
theorem c10_witness :
    getBend ⟨0, 0⟩ ⟨1, 2⟩ ⟨5, 3⟩ = .ok BendDirection.unknown ∧
      ∃ r, simplifyPath ([] ++ (⟨0, 0⟩ : Point) :: ⟨1, 2⟩ :: ⟨5, 3⟩ :: []) = .ok r ∧
        (⟨1, 2⟩ : Point) ∈ r := by
  refine ⟨by decide, ?_⟩
  exact c10_getBend_total_unknown_retained.2 [] ⟨0, 0⟩ ⟨1, 2⟩ ⟨5, 3⟩ [] (by decide)

end Horizon
